import Mathlib

/-!
Verification of the digest normalization/segmentation core of
`frontend/src/App.tsx` (`prettifyMarkdown` and `splitIntoDigest`).

Strings are modelled as `List Char`.  The JavaScript regular expressions of
the source are modelled by explicit matching functions that reproduce the
regex engine's leftmost-match, greedy-with-backtracking semantics for the
specific patterns used:

* `/(^|\n)\*\*([^*\n]{3,60})\*\*:\s*/g`  (bold pseudo-header rewrite)
* `/(^|\n)([A-Z][A-Za-z0-9 &\/'’\-]{4,80}):\s*\n/g`  (title-case rewrite)
* `/\n(?=##?\s+)/g`  (story split), `/^##?\s+/` (title strip)
* `/\n(?=\d+\.\s+)/g`  (sub-section split)

Recursive scans use an explicit fuel argument (initialised with the input
length, which the scans never exhaust) so that all definitions compute by
structural recursion and concrete instances can be settled by `decide`.
-/

/-- JavaScript whitespace: the character set matched by `\s` and removed by
`String.prototype.trim` (WhiteSpace ∪ LineTerminator). -/
def jsWhitespace (c : Char) : Bool :=
  let n := c.toNat
  n = 9 || n = 10 || n = 11 || n = 12 || n = 13 || n = 32 || n = 160 ||
  n = 5760 || (8192 ≤ n && n ≤ 8202) || n = 8232 || n = 8233 || n = 8239 ||
  n = 8287 || n = 12288 || n = 65279

/-- Model of `\d`, the digit class of the numeric-list marker. -/
def isDigitC (c : Char) : Bool := 48 ≤ c.toNat && c.toNat ≤ 57

/-- Model of `[A-Z]`, the required first character of a title-case pseudo-header. -/
def isUpperAZ (c : Char) : Bool := 65 ≤ c.toNat && c.toNat ≤ 90

/-- The character class `[A-Za-z0-9 &/'’\-]` of the title-case rewrite. -/
def isTitleChar (c : Char) : Bool :=
  isUpperAZ c || (97 ≤ c.toNat && c.toNat ≤ 122) || isDigitC c ||
  c.toNat = 32 || c.toNat = 38 || c.toNat = 47 || c.toNat = 39 ||
  c.toNat = 8217 || c.toNat = 45

/-- The character class `[^*\n]` of the bold pseudo-header label. -/
def boldLabelChar (c : Char) : Bool := !(c == '*') && !(c == '\n')

/-- Left part of `String.prototype.trim`. -/
def jsTrimLeft (l : List Char) : List Char := l.dropWhile jsWhitespace

/-- Right part of `String.prototype.trim`. -/
def jsTrimRight (l : List Char) : List Char :=
  (l.reverse.dropWhile jsWhitespace).reverse

/-- JavaScript `String.prototype.trim`. -/
def jsTrim (l : List Char) : List Char := jsTrimRight (jsTrimLeft l)

/-- Prepend a character to the first fragment of a split result. -/
def consHead (c : Char) : List (List Char) → List (List Char)
  | [] => [[c]]
  | l :: ls => (c :: l) :: ls

/-- Model of `String.prototype.split("\n")`: split at every newline. -/
def splitAll : List Char → List (List Char)
  | [] => [[]]
  | c :: rest => if c = '\n' then [] :: splitAll rest else consHead c (splitAll rest)

/-- Model of `String.prototype.split(/\n(?=X)/g)`: split at every newline whose
remainder satisfies the lookahead `p`; the newline is removed. -/
def splitNl (p : List Char → Bool) : List Char → List (List Char)
  | [] => [[]]
  | c :: rest =>
    if c = '\n' ∧ p rest = true then [] :: splitNl p rest
    else consHead c (splitNl p rest)

/-- Model of `Array.prototype.join("\n")`. -/
def intercalateNl : List (List Char) → List Char
  | [] => []
  | l :: ls => match ls with
    | [] => l
    | _ :: _ => l ++ '\n' :: intercalateNl ls

/-- Split a (whitespace) run at its last newline: returns
`some (before-and-including-last-newline, after)` when the run contains a
newline.  Models the backtracking of `\s*\n`: the greedy `\s*` gives back
characters until the required `\n` is the last consumed character. -/
def splitLastNl : List Char → Option (List Char × List Char)
  | [] => none
  | c :: rest =>
    match splitLastNl rest with
    | some (b, a) => some (c :: b, a)
    | none => if c = '\n' then some (['\n'], rest) else none

/-- Match of the bold pseudo-header core `\*\*([^*\n]{3,60})\*\*:\s*` at the
start of `cs` (right after the `(^|\n)` anchor).  Returns the captured label
and the remainder after the match.  The greedy `{3,60}` cannot backtrack to a
different end because the class excludes `*` and the pattern resumes with
`\*`; the trailing `\s*` is maximal because the pattern ends there. -/
def tryBoldCore (cs : List Char) : Option (List Char × List Char) :=
  match cs with
  | '*' :: '*' :: rest =>
    if 3 ≤ (rest.takeWhile boldLabelChar).length ∧ (rest.takeWhile boldLabelChar).length ≤ 60 then
      match rest.dropWhile boldLabelChar with
      | '*' :: '*' :: ':' :: rest3 =>
        some (rest.takeWhile boldLabelChar, rest3.dropWhile jsWhitespace)
      | _ => none
    else none
  | _ => none

/-- Match of the title-case core `([A-Z][A-Za-z0-9 &/'’\-]{4,80}):\s*\n` at
the start of `cs`.  The greedy class run cannot backtrack to a different end
because the class excludes `:`; the `\s*\n` consumes whitespace up to and
including the last newline of the whitespace run. -/
def tryTitleCore (cs : List Char) : Option (List Char × List Char) :=
  match cs with
  | [] => none
  | c :: rest =>
    if isUpperAZ c then
      if 4 ≤ (rest.takeWhile isTitleChar).length ∧ (rest.takeWhile isTitleChar).length ≤ 80 then
        match rest.dropWhile isTitleChar with
        | ':' :: rest3 =>
          match splitLastNl (rest3.takeWhile jsWhitespace) with
          | some (_, a) =>
            some (c :: rest.takeWhile isTitleChar, a ++ rest3.dropWhile jsWhitespace)
          | none => none
        | _ => none
      else none
    else none

/-- Replacement text `### $2\n\n` of the bold rewrite (without the re-emitted
`$1` newline, which the scanner emits itself). -/
def emitBold (lab : List Char) : List Char :=
  '#' :: '#' :: '#' :: ' ' :: lab ++ ['\n', '\n']

/-- Replacement text `### $2\n` of the title-case rewrite (without `$1`). -/
def emitTitle (lab : List Char) : List Char :=
  '#' :: '#' :: '#' :: ' ' :: lab ++ ['\n']

/-- Global-replace scan for positions after the start of the string: a match
can begin only at a newline (the `\n` branch of `(^|\n)`), and scanning
resumes at the end of each match, as `String.prototype.replace` with a `g`
regex does.  `fuel` only bounds the recursion; it is never exhausted when
initialised with the input length. -/
def scanReplF (core : List Char → Option (List Char × List Char))
    (emit : List Char → List Char) : Nat → List Char → List Char
  | 0, l => l
  | _ + 1, [] => []
  | fuel + 1, c :: rest =>
    if c = '\n' then
      match core rest with
      | some (lab, r) => '\n' :: (emit lab ++ scanReplF core emit fuel r)
      | none => '\n' :: scanReplF core emit fuel rest
    else c :: scanReplF core emit fuel rest

/-- Global replace: also try the `^` branch of `(^|\n)` at position 0. -/
def replaceAll (core : List Char → Option (List Char × List Char))
    (emit : List Char → List Char) (l : List Char) : List Char :=
  match core l with
  | some (lab, r) => emit lab ++ scanReplF core emit l.length r
  | none => scanReplF core emit l.length l

/-- Model of the first replace of the normalizer: the bold pseudo-header rewrite. -/
def boldReplace (l : List Char) : List Char := replaceAll tryBoldCore emitBold l

/-- Model of the second replace of the normalizer: the title-case rewrite. -/
def titleReplace (l : List Char) : List Char := replaceAll tryTitleCore emitTitle l

/-- Model of `prettifyMarkdown` of `App.tsx`: the normalizer. -/
def prettifyMarkdown (md : List Char) : List Char :=
  if md = [] then md else titleReplace (boldReplace (jsTrim md))

/-- Lookahead `##?\s+` of the story split and the title strip. -/
def headerLookahead : List Char → Bool
  | '#' :: '#' :: c :: _ => jsWhitespace c
  | '#' :: c :: _ => jsWhitespace c
  | _ => false

/-- Lookahead `\d+\.\s+` of the sub-section split. -/
def numericLookahead (l : List Char) : Bool :=
  let ds := l.takeWhile isDigitC
  !ds.isEmpty &&
    match l.dropWhile isDigitC with
    | c1 :: c2 :: _ => c1 == '.' && jsWhitespace c2
    | _ => false

/-- Model of `firstLine.replace(/^##?\s+/, "")`: strip one or two leading `#` plus the
following whitespace run, if present. -/
def stripHeaderMark (l : List Char) : List Char :=
  match l with
  | '#' :: '#' :: c :: rest =>
    if jsWhitespace c then (c :: rest).dropWhile jsWhitespace else l
  | '#' :: c :: rest =>
    if jsWhitespace c then (c :: rest).dropWhile jsWhitespace else l
  | _ => l

/-- The output record of the segmenter. -/
structure DigestCard where
  title : List Char
  body : List Char
  subcards : List (List Char)
deriving DecidableEq

/-- Body of the `for` loop of `splitIntoDigest`: build one card from one
story block. -/
def mkCard (block : List Char) : DigestCard :=
  let lns := splitAll block
  let firstLine := jsTrim (lns.headD [])
  let title := jsTrim (stripHeaderMark firstLine)
  let rest := jsTrim (intercalateNl lns.tail)
  let parts := if rest = [] then [] else splitNl numericLookahead rest
  { title := if title = [] then "Top story".data else title
    body := if parts = [] then rest else jsTrim (parts.headD [])
    subcards :=
      if parts.length ≤ 1 then []
      else ((parts.tail).map jsTrim).filter (fun x => !x.isEmpty) }

/-- Model of `splitIntoDigest` of `App.tsx`: the segmenter. -/
def splitIntoDigest (md : List Char) : List DigestCard :=
  let text := jsTrim md
  if text = [] then []
  else
    let blocks := ((splitNl headerLookahead text).map jsTrim).filter (fun x => !x.isEmpty)
    let storyBlocks := if 1 < blocks.length then blocks else [text]
    storyBlocks.map mkCard

/-- The composed pipeline `segment ∘ normalize` used by the application. -/
def digestPipeline (s : List Char) : List DigestCard :=
  splitIntoDigest (prettifyMarkdown s)

/-- Count of non-whitespace characters. -/
def countNW (l : List Char) : Nat := (l.filter (fun c => !jsWhitespace c)).length

/-- Characters that are neither whitespace nor one of `*`, `:`, `#`: the
characters the normalizer always preserves verbatim. -/
def keepChar (c : Char) : Bool :=
  !jsWhitespace c && !(c == '*') && !(c == ':') && !(c == '#')

/-- Non-whitespace count over all fields of one card. -/
def cardNW (c : DigestCard) : Nat :=
  countNW c.title + countNW c.body + (c.subcards.map countNW).sum

/-- Non-whitespace count over all fields of all cards. -/
def totalNW (cs : List DigestCard) : Nat := (cs.map cardNW).sum

/-- Predicate `chainSub xs t`: the strings `xs` occur, in this order and without
overlap, as substrings of `t`. -/
def chainSub : List (List Char) → List Char → Prop
  | [], _ => True
  | x :: xs, t => ∃ u v, t = u ++ x ++ v ∧ chainSub xs v

/-- Predicate `reconstructs p fs t`: the fragments `fs` reassemble `t` with one newline
between consecutive fragments, and the lookahead `p` holds at the suffix of
`t` beginning at every fragment but the first. -/
def reconstructs (p : List Char → Bool) : List (List Char) → List Char → Prop
  | [], _ => False
  | f :: fs, t =>
    match fs with
    | [] => t = f
    | _ :: _ => ∃ t', t = f ++ '\n' :: t' ∧ p t' = true ∧ reconstructs p fs t'

/-- A canonical header line: a line starting with the marker `### `. -/
def isHdrLine (l : List Char) : Bool := "### ".data.isPrefixOf l

/-! ### Character facts -/

theorem jsWhitespace_newline : jsWhitespace '\n' = true := by decide

theorem jsWhitespace_hash : jsWhitespace '#' = false := by decide

theorem not_ws_of_isDigitC {c : Char} (h : isDigitC c = true) :
    jsWhitespace c = false := by
  simp only [isDigitC, Bool.and_eq_true, decide_eq_true_eq] at h
  rw [Bool.eq_false_iff]
  intro hw
  simp only [jsWhitespace, Bool.or_eq_true, Bool.and_eq_true, decide_eq_true_eq] at hw
  omega

theorem ne_hash_of_isUpperAZ {c : Char} (h : isUpperAZ c = true) : c ≠ '#' := by
  intro hc
  subst hc
  exact absurd h (by decide)

/-! ### Filter and trim lemmas -/

theorem filter_dropWhile {p q : Char → Bool} (hq : ∀ c, p c = true → q c = false) :
    ∀ l : List Char, (l.dropWhile p).filter q = l.filter q := by
  intro l
  induction l with
  | nil => rfl
  | cons c rest ih =>
    by_cases hp : p c = true
    · rw [List.dropWhile_cons_of_pos hp, ih, List.filter_cons_of_neg]
      simp [hq c hp]
    · rw [List.dropWhile_cons_of_neg hp]

theorem filter_jsTrimLeft {q : Char → Bool} (hq : ∀ c, jsWhitespace c = true → q c = false)
    (l : List Char) : (jsTrimLeft l).filter q = l.filter q :=
  filter_dropWhile hq l

theorem filter_jsTrimRight {q : Char → Bool} (hq : ∀ c, jsWhitespace c = true → q c = false)
    (l : List Char) : (jsTrimRight l).filter q = l.filter q := by
  unfold jsTrimRight
  rw [List.filter_reverse, filter_dropWhile hq, List.filter_reverse, List.reverse_reverse]

theorem filter_jsTrim {q : Char → Bool} (hq : ∀ c, jsWhitespace c = true → q c = false)
    (l : List Char) : (jsTrim l).filter q = l.filter q := by
  unfold jsTrim
  rw [filter_jsTrimRight hq, filter_jsTrimLeft hq]

theorem countNW_jsTrim (l : List Char) : countNW (jsTrim l) = countNW l := by
  unfold countNW
  rw [filter_jsTrim]
  intro c hc
  simp [hc]

theorem jsTrimLeft_inside (l : List Char) : jsTrimLeft l <:+: l := by
  refine ⟨l.takeWhile jsWhitespace, [], ?_⟩
  rw [List.append_nil]
  exact List.takeWhile_append_dropWhile jsWhitespace l

theorem jsTrimRight_front (l : List Char) : jsTrimRight l <+: l := by
  refine ⟨(l.reverse.takeWhile jsWhitespace).reverse, ?_⟩
  unfold jsTrimRight
  rw [← List.reverse_append, List.takeWhile_append_dropWhile, List.reverse_reverse]

theorem jsTrim_inside (l : List Char) : jsTrim l <:+: l := by
  unfold jsTrim
  obtain ⟨u, hu⟩ := jsTrimRight_front (jsTrimLeft l)
  exact List.IsInfix.trans ⟨[], u, by simpa using hu⟩ (jsTrimLeft_inside l)

theorem dropWhile_self_idem (p : Char → Bool) (l : List Char) :
    (l.dropWhile p).dropWhile p = l.dropWhile p := by
  induction l with
  | nil => rfl
  | cons c rest ih =>
    by_cases hp : p c = true
    · rw [List.dropWhile_cons_of_pos hp, ih]
    · rw [List.dropWhile_cons_of_neg hp, List.dropWhile_cons_of_neg hp]

theorem jsTrimRight_idem (l : List Char) : jsTrimRight (jsTrimRight l) = jsTrimRight l := by
  unfold jsTrimRight
  rw [List.reverse_reverse, dropWhile_self_idem]

theorem head_not_ws_of_jsTrimLeft {l : List Char} {c : Char} {t : List Char}
    (h : jsTrimLeft l = c :: t) : jsWhitespace c = false := by
  unfold jsTrimLeft at h
  induction l with
  | nil => simp at h
  | cons d rest ih =>
    by_cases hp : jsWhitespace d = true
    · rw [List.dropWhile_cons_of_pos hp] at h
      exact ih h
    · rw [List.dropWhile_cons_of_neg hp] at h
      cases h
      simpa using hp

theorem jsTrimLeft_of_head_not_ws {l : List Char}
    (h : ∀ c t, l = c :: t → jsWhitespace c = false) : jsTrimLeft l = l := by
  cases l with
  | nil => rfl
  | cons c t => exact List.dropWhile_cons_of_neg (by simp [h c t rfl])

theorem jsTrim_idem (l : List Char) : jsTrim (jsTrim l) = jsTrim l := by
  unfold jsTrim
  have h1 : jsTrimLeft (jsTrimRight (jsTrimLeft l)) = jsTrimRight (jsTrimLeft l) := by
    apply jsTrimLeft_of_head_not_ws
    intro c t hct
    obtain ⟨u, hu⟩ := jsTrimRight_front (jsTrimLeft l)
    have : jsTrimLeft l = c :: (t ++ u) := by rw [← hu, hct]; simp
    exact head_not_ws_of_jsTrimLeft this
  rw [h1, jsTrimRight_idem]

theorem jsTrim_eq_nil_iff (l : List Char) :
    jsTrim l = [] ↔ ∀ c ∈ l, jsWhitespace c = true := by
  constructor
  · intro h c hc
    by_contra hns
    have hq : (jsTrim l).filter (fun c => !jsWhitespace c) = l.filter (fun c => !jsWhitespace c) := by
      apply filter_jsTrim
      intro d hd
      simp [hd]
    rw [h] at hq
    have : c ∈ l.filter (fun c => !jsWhitespace c) := by
      rw [List.mem_filter]
      exact ⟨hc, by simp [Bool.not_eq_true] at hns ⊢; exact hns⟩
    rw [← hq] at this
    simp at this
  · intro h
    have h1 : jsTrimLeft l = [] := by
      unfold jsTrimLeft
      rw [List.dropWhile_eq_nil_iff]
      intro c hc
      exact h c hc
    rw [jsTrim, h1]
    rfl

/-! ### splitAll (split on every newline) -/

theorem consHead_cons (c : Char) (h : List Char) (t : List (List Char)) :
    consHead c (h :: t) = (c :: h) :: t := rfl

theorem splitAll_ne_nil (l : List Char) : splitAll l ≠ [] := by
  cases l with
  | nil => simp [splitAll]
  | cons c rest =>
    simp only [splitAll]
    by_cases hc : c = '\n'
    · simp [hc]
    · simp only [hc, if_false]
      cases hs : splitAll rest <;> simp [consHead]

theorem splitAll_cons_nl (l : List Char) : splitAll ('\n' :: l) = [] :: splitAll l := by
  simp [splitAll]

theorem splitAll_cons_of_ne {c : Char} (hc : c ≠ '\n') (l : List Char) :
    splitAll (c :: l) = consHead c (splitAll l) := by
  simp [splitAll, hc]

theorem splitAll_append_nl (A B : List Char) :
    splitAll (A ++ '\n' :: B) = splitAll A ++ splitAll B := by
  induction A with
  | nil => simp [splitAll_cons_nl, splitAll]
  | cons c A ih =>
    by_cases hc : c = '\n'
    · subst hc
      rw [List.cons_append, splitAll_cons_nl, splitAll_cons_nl, ih, List.cons_append]
    · rw [List.cons_append, splitAll_cons_of_ne hc, splitAll_cons_of_ne hc, ih]
      obtain ⟨h, t, hht⟩ : ∃ h t, splitAll A = h :: t := by
        cases hs : splitAll A with
        | nil => exact absurd hs (splitAll_ne_nil A)
        | cons h t => exact ⟨h, t, rfl⟩
      rw [hht, List.cons_append, consHead_cons, consHead_cons, List.cons_append]

theorem splitAll_noNl_append {pre : List Char} (hpre : ∀ c ∈ pre, c ≠ '\n')
    {t : List Char} {h : List Char} {tl : List (List Char)}
    (ht : splitAll t = h :: tl) : splitAll (pre ++ t) = (pre ++ h) :: tl := by
  induction pre with
  | nil => simpa using ht
  | cons c pre ih =>
    have hc : c ≠ '\n' := hpre c (by simp)
    have ih' := ih (fun d hd => hpre d (by simp [hd]))
    rw [List.cons_append, splitAll_cons_of_ne hc, ih', consHead_cons, List.cons_append]

theorem splitAll_headD_cons {c : Char} (hc : c ≠ '\n') (t : List Char) :
    (splitAll (c :: t)).headD [] = c :: (splitAll t).headD [] := by
  rw [splitAll_cons_of_ne hc]
  cases hs : splitAll t with
  | nil => exact absurd hs (splitAll_ne_nil t)
  | cons h tl => simp [consHead]

theorem intercalateNl_splitAll (l : List Char) : intercalateNl (splitAll l) = l := by
  induction l with
  | nil => rfl
  | cons c rest ih =>
    by_cases hc : c = '\n'
    · subst hc
      rw [splitAll_cons_nl]
      cases hs : splitAll rest with
      | nil => exact absurd hs (splitAll_ne_nil rest)
      | cons h tl =>
        rw [hs] at ih
        simp only [intercalateNl, List.nil_append, ← ih]
    · rw [splitAll_cons_of_ne hc]
      cases hs : splitAll rest with
      | nil => exact absurd hs (splitAll_ne_nil rest)
      | cons h tl =>
        rw [hs] at ih
        rw [consHead_cons]
        cases tl with
        | nil =>
          simp only [intercalateNl] at ih ⊢
          rw [ih]
        | cons t2 tl2 =>
          simp only [intercalateNl] at ih ⊢
          rw [List.cons_append, ih]

theorem countNW_append (a b : List Char) : countNW (a ++ b) = countNW a + countNW b := by
  unfold countNW
  rw [List.filter_append, List.length_append]

theorem countNW_cons_ws {c : Char} (hc : jsWhitespace c = true) (l : List Char) :
    countNW (c :: l) = countNW l := by
  unfold countNW
  rw [List.filter_cons_of_neg]
  simp [hc]

theorem countNW_splitAll (l : List Char) : ((splitAll l).map countNW).sum = countNW l := by
  induction l with
  | nil => simp [splitAll, countNW]
  | cons c rest ih =>
    by_cases hc : c = '\n'
    · subst hc
      rw [splitAll_cons_nl]
      simp only [List.map_cons, List.sum_cons, ih]
      rw [countNW_cons_ws jsWhitespace_newline]
      simp [countNW]
    · rw [splitAll_cons_of_ne hc]
      cases hs : splitAll rest with
      | nil => exact absurd hs (splitAll_ne_nil rest)
      | cons h tl =>
        rw [hs] at ih
        rw [consHead_cons]
        simp only [List.map_cons, List.sum_cons] at ih ⊢
        have h1 : countNW (c :: h) = countNW [c] + countNW h := by
          simpa using countNW_append [c] h
        have h2 : countNW (c :: rest) = countNW [c] + countNW rest := by
          simpa using countNW_append [c] rest
        rw [h1, h2]
        omega

/-! ### Canonical header lines and absorption of matched text -/

theorem isHdrLine_exists {l : List Char} (h : isHdrLine l = true) :
    ∃ t, l = '#' :: '#' :: '#' :: ' ' :: t := by
  unfold isHdrLine at h
  cases l with
  | nil => simp [List.isPrefixOf] at h
  | cons c1 l1 =>
  cases l1 with
  | nil => simp [List.isPrefixOf] at h
  | cons c2 l2 =>
  cases l2 with
  | nil => simp [List.isPrefixOf] at h
  | cons c3 l3 =>
  cases l3 with
  | nil => simp [List.isPrefixOf] at h
  | cons c4 l4 =>
  simp only [List.isPrefixOf, Bool.and_eq_true, beq_iff_eq] at h
  obtain ⟨h1, h2, h3, h4, -⟩ := h
  exact ⟨l4, by rw [← h1, ← h2, ← h3, ← h4]⟩

theorem isHdrLine_ne_nil {l : List Char} (h : isHdrLine l = true) : l ≠ [] := by
  obtain ⟨t, ht⟩ := isHdrLine_exists h
  simp [ht]

/-- Whitespace in front of a remainder cannot hide a header line: a header
line of `w ++ t` with `w` all-whitespace is a line of `t`. -/
theorem hdr_mem_of_ws_append {w : List Char} (hw : ∀ c ∈ w, jsWhitespace c = true)
    {t : List Char} {l : List Char} (hl : isHdrLine l = true) :
    l ∈ splitAll (w ++ t) → l ∈ splitAll t := by
  induction w with
  | nil =>
    rw [List.nil_append]
    exact id
  | cons c w ih =>
    intro hmem
    have hcw : jsWhitespace c = true := hw c (by simp)
    have ih' := ih (fun d hd => hw d (by simp [hd]))
    by_cases hc : c = '\n'
    · subst hc
      rw [List.cons_append, splitAll_cons_nl] at hmem
      rcases List.mem_cons.mp hmem with h0 | h0
      · exact absurd h0.symm (by simpa using isHdrLine_ne_nil hl)
      · exact ih' h0
    · rw [List.cons_append, splitAll_cons_of_ne hc] at hmem
      cases hs : splitAll (w ++ t) with
      | nil => exact absurd hs (splitAll_ne_nil _)
      | cons h tl =>
        rw [hs, consHead_cons] at hmem
        rcases List.mem_cons.mp hmem with h0 | h0
        · obtain ⟨u, hu⟩ := isHdrLine_exists hl
          rw [hu] at h0
          have : c = '#' := by
            have := congrArg (fun x => x.headD ' ') h0
            simpa using this.symm
          rw [this] at hcw
          exact absurd hcw (by simp [jsWhitespace_hash])
        · exact ih' (hs ▸ List.mem_of_mem_tail (by simpa [hs] using h0))

/-- Newline-free matched text starting with a non-`#` character cannot hide a
header line: a header line of `pre ++ t` is a line of `t`. -/
theorem hdr_mem_of_noNl_append {p0 : Char} {pre : List Char} (h0 : p0 ≠ '#')
    (hnl : ∀ c ∈ p0 :: pre, c ≠ '\n') {t : List Char} {l : List Char}
    (hl : isHdrLine l = true) : l ∈ splitAll ((p0 :: pre) ++ t) → l ∈ splitAll t := by
  intro hmem
  cases hs : splitAll t with
  | nil => exact absurd hs (splitAll_ne_nil t)
  | cons h tl =>
    rw [splitAll_noNl_append hnl hs] at hmem
    rcases List.mem_cons.mp hmem with hcase | hcase
    · obtain ⟨u, hu⟩ := isHdrLine_exists hl
      rw [hu] at hcase
      have : p0 = '#' := by
        have := congrArg (fun x => x.headD ' ') hcase.symm
        simpa using this
      exact absurd this h0
    · exact List.mem_cons_of_mem _ hcase

theorem splitAll_snoc_noNl {c : Char} (hc : c ≠ '\n') :
    ∀ u : List Char,
      splitAll (u ++ [c]) = (splitAll u).dropLast ++ [((splitAll u).getLastD []) ++ [c]] := by
  intro u
  induction u with
  | nil => simp [splitAll, consHead, hc]
  | cons d u ih =>
    by_cases hd : d = '\n'
    · subst hd
      rw [List.cons_append, splitAll_cons_nl, splitAll_cons_nl, ih]
      cases hs : splitAll u with
      | nil => exact absurd hs (splitAll_ne_nil u)
      | cons h tl => simp
    · rw [List.cons_append, splitAll_cons_of_ne hd, splitAll_cons_of_ne hd, ih]
      cases hs : splitAll u with
      | nil => exact absurd hs (splitAll_ne_nil u)
      | cons h tl =>
        cases tl with
        | nil => simp [consHead]
        | cons t2 tl2 => simp [consHead]

/-- Trailing whitespace cannot hide a header line that does not itself end in
whitespace: such a line of `t ++ w` with `w` all-whitespace is a line of `t`. -/
theorem hdr_mem_of_append_ws {w : List Char} (hw : ∀ c ∈ w, jsWhitespace c = true)
    {t : List Char} {l : List Char} (hne : l ≠ [])
    (hlast : jsWhitespace (l.getLastD '#') = false) :
    l ∈ splitAll (t ++ w) → l ∈ splitAll t := by
  induction w using List.reverseRecOn generalizing t with
  | nil =>
    rw [List.append_nil]
    exact id
  | append_singleton w c ih =>
    intro hmem
    have hcw : jsWhitespace c = true := hw c (by simp)
    have hw' : ∀ d ∈ w, jsWhitespace d = true := fun d hd => hw d (by simp [hd])
    have hmem' : l ∈ splitAll ((t ++ w) ++ [c]) := by
      rw [List.append_assoc]
      exact hmem
    have : l ∈ splitAll (t ++ w) := by
      by_cases hc : c = '\n'
      · subst hc
        rw [show ((t ++ w) ++ ['\n']) = ((t ++ w) ++ '\n' :: []) from rfl,
            splitAll_append_nl] at hmem'
        rcases List.mem_append.mp hmem' with h1 | h1
        · exact h1
        · simp only [splitAll] at h1
          rcases List.mem_singleton.mp h1 with h2
          exact absurd h2 hne
      · rw [splitAll_snoc_noNl hc] at hmem'
        rcases List.mem_append.mp hmem' with h1 | h1
        · exact (List.dropLast_sublist _).subset h1
        · rcases List.mem_singleton.mp h1 with h2
          have : l.getLastD '#' = c := by
            rw [h2]
            simp
          rw [this] at hlast
          rw [hcw] at hlast
          exact absurd hlast (by simp)
    exact ih hw' this

/-! ### Decomposition of successful core matches -/

theorem splitLastNl_eq : ∀ {x b a : List Char}, splitLastNl x = some (b, a) → x = b ++ a := by
  intro x
  induction x with
  | nil => intro b a h; simp [splitLastNl] at h
  | cons c rest ih =>
    intro b a h
    simp only [splitLastNl] at h
    cases hr : splitLastNl rest with
    | some p =>
      obtain ⟨p1, p2⟩ := p
      rw [hr] at h
      simp only [Option.some.injEq, Prod.mk.injEq] at h
      obtain ⟨hb, ha⟩ := h
      subst hb
      subst ha
      rw [List.cons_append, ← ih hr]
    | none =>
      rw [hr] at h
      by_cases hc : c = '\n'
      · subst hc
        rw [if_pos rfl] at h
        simp only [Option.some.injEq, Prod.mk.injEq] at h
        obtain ⟨hb, ha⟩ := h
        subst hb
        subst ha
        rfl
      · simp [hc] at h

theorem tryBoldCore_eq {cs lab r : List Char} (h : tryBoldCore cs = some (lab, r)) :
    ∃ w, cs = ('*' :: '*' :: (lab ++ '*' :: '*' :: ':' :: w)) ++ r ∧
      (∀ c ∈ w, jsWhitespace c = true) ∧ (∀ c ∈ lab, boldLabelChar c = true) ∧
      3 ≤ lab.length ∧ lab.length ≤ 60 := by
  unfold tryBoldCore at h
  split at h
  next rest =>
    split at h
    next hlen =>
      split at h
      next rest3 heq =>
        simp only [Option.some.injEq, Prod.mk.injEq] at h
        obtain ⟨hlab, hr⟩ := h
        refine ⟨rest3.takeWhile jsWhitespace, ?_, ?_, ?_, ?_, ?_⟩
        · have h1 : rest = lab ++ ('*' :: '*' :: ':' :: rest3) := by
            rw [← hlab, ← heq]
            exact (List.takeWhile_append_dropWhile boldLabelChar rest).symm
          have h2 : rest3 = rest3.takeWhile jsWhitespace ++ r := by
            rw [← hr]
            exact (List.takeWhile_append_dropWhile jsWhitespace rest3).symm
          rw [h1]
          nth_rewrite 1 [h2]
          simp [List.append_assoc]
        · intro c hc
          exact List.mem_takeWhile_imp hc
        · intro c hc
          rw [← hlab] at hc
          exact List.mem_takeWhile_imp hc
        · rw [← hlab]; exact hlen.1
        · rw [← hlab]; exact hlen.2
      next heq => exact absurd h (by simp)
    next => exact absurd h (by simp)
  next => exact absurd h (by simp)

theorem tryTitleCore_eq {cs lab r : List Char} (h : tryTitleCore cs = some (lab, r)) :
    ∃ c run w, lab = c :: run ∧ isUpperAZ c = true ∧
      cs = (lab ++ ':' :: w) ++ r ∧ (∀ x ∈ w, jsWhitespace x = true) ∧
      (∀ x ∈ run, isTitleChar x = true) := by
  unfold tryTitleCore at h
  split at h
  next => exact absurd h (by simp)
  next c rest =>
    split at h
    next hup =>
      split at h
      next hlen =>
        split at h
        next rest3 heq =>
          split at h
          next b a heq2 =>
            simp only [Option.some.injEq, Prod.mk.injEq] at h
            obtain ⟨hlab, hr⟩ := h
            refine ⟨c, rest.takeWhile isTitleChar, b, hlab.symm, hup, ?_, ?_, ?_⟩
            · have h1 : rest = rest.takeWhile isTitleChar ++ (':' :: rest3) := by
                rw [← heq]
                exact (List.takeWhile_append_dropWhile isTitleChar rest).symm
              have h2 : rest3.takeWhile jsWhitespace = b ++ a := splitLastNl_eq heq2
              have h3 : rest3 = (b ++ a) ++ rest3.dropWhile jsWhitespace := by
                rw [← h2]
                exact (List.takeWhile_append_dropWhile jsWhitespace rest3).symm
              rw [← hlab, ← hr]
              show c :: rest = ((c :: rest.takeWhile isTitleChar) ++ ':' :: b) ++
                (a ++ rest3.dropWhile jsWhitespace)
              rw [List.cons_append]
              nth_rewrite 1 [h1]
              nth_rewrite 1 [h3]
              simp [List.append_assoc]
            · intro x hx
              have hmem : x ∈ rest3.takeWhile jsWhitespace := by
                rw [splitLastNl_eq heq2]
                exact List.mem_append_left a hx
              exact List.mem_takeWhile_imp hmem
            · intro x hx
              exact List.mem_takeWhile_imp hx
          next => exact absurd h (by simp)
        next => exact absurd h (by simp)
      next => exact absurd h (by simp)
    next => exact absurd h (by simp)

theorem tryBoldCore_length {cs lab r : List Char} (h : tryBoldCore cs = some (lab, r)) :
    r.length ≤ cs.length := by
  obtain ⟨w, hcs, -, -, -, -⟩ := tryBoldCore_eq h
  rw [hcs]
  simp only [List.length_append, List.length_cons]
  omega

theorem tryTitleCore_length {cs lab r : List Char} (h : tryTitleCore cs = some (lab, r)) :
    r.length ≤ cs.length := by
  obtain ⟨c, run, w, -, -, hcs, -, -⟩ := tryTitleCore_eq h
  rw [hcs]
  simp only [List.length_append, List.length_cons]
  omega

/-! ### Generic lemmas about the global-replace scanner -/

theorem scanReplF_cons_some {core : List Char → Option (List Char × List Char)}
    {emit : List Char → List Char} {fuel : Nat} {rest lab r : List Char}
    (hco : core rest = some (lab, r)) :
    scanReplF core emit (fuel + 1) ('\n' :: rest) =
      '\n' :: (emit lab ++ scanReplF core emit fuel r) := by
  rw [scanReplF, if_pos rfl, hco]

theorem scanReplF_cons_none {core : List Char → Option (List Char × List Char)}
    {emit : List Char → List Char} {fuel : Nat} {rest : List Char}
    (hco : core rest = none) :
    scanReplF core emit (fuel + 1) ('\n' :: rest) =
      '\n' :: scanReplF core emit fuel rest := by
  rw [scanReplF, if_pos rfl, hco]

theorem scanReplF_cons_other {core : List Char → Option (List Char × List Char)}
    {emit : List Char → List Char} {fuel : Nat} {c : Char} {rest : List Char}
    (hc : c ≠ '\n') :
    scanReplF core emit (fuel + 1) (c :: rest) = c :: scanReplF core emit fuel rest := by
  rw [scanReplF, if_neg hc]

theorem replaceAll_some {core : List Char → Option (List Char × List Char)}
    {emit : List Char → List Char} {l lab r : List Char}
    (hco : core l = some (lab, r)) :
    replaceAll core emit l = emit lab ++ scanReplF core emit l.length r := by
  unfold replaceAll
  rw [hco]

theorem replaceAll_none {core : List Char → Option (List Char × List Char)}
    {emit : List Char → List Char} {l : List Char} (hco : core l = none) :
    replaceAll core emit l = scanReplF core emit l.length l := by
  unfold replaceAll
  rw [hco]

theorem scanReplF_filter {core : List Char → Option (List Char × List Char)}
    {emit : List Char → List Char} {q : Char → Bool} (hqnl : q '\n' = false)
    (hmid : ∀ cs lab r, core cs = some (lab, r) →
      ∃ mid, cs = mid ++ r ∧ mid.filter q = lab.filter q)
    (hemit : ∀ lab, (emit lab).filter q = lab.filter q)
    (hlen : ∀ cs lab r, core cs = some (lab, r) → r.length ≤ cs.length) :
    ∀ fuel x, x.length ≤ fuel → (scanReplF core emit fuel x).filter q = x.filter q := by
  intro fuel
  induction fuel with
  | zero =>
    intro x hx
    rw [List.eq_nil_of_length_eq_zero (Nat.le_zero.mp hx)]
    rfl
  | succ fuel ih =>
    intro x hx
    cases x with
    | nil => rfl
    | cons c rest =>
      have hrest : rest.length ≤ fuel := by
        simpa using Nat.succ_le_succ_iff.mp (by simpa using hx)
      by_cases hc : c = '\n'
      · subst hc
        cases hco : core rest with
        | some p =>
          obtain ⟨lab, r⟩ := p
          obtain ⟨mid, hm1, hm2⟩ := hmid rest lab r hco
          have hr : r.length ≤ fuel := le_trans (hlen rest lab r hco) hrest
          rw [scanReplF_cons_some hco]
          rw [List.filter_cons_of_neg (by simp [hqnl]),
              List.filter_cons_of_neg (by simp [hqnl])]
          rw [List.filter_append, hemit, ih r hr, hm1, List.filter_append, hm2]
        | none =>
          rw [scanReplF_cons_none hco]
          rw [List.filter_cons_of_neg (by simp [hqnl]),
              List.filter_cons_of_neg (by simp [hqnl])]
          exact ih rest hrest
      · rw [scanReplF_cons_other hc]
        rw [List.filter_cons, List.filter_cons, ih rest hrest]

theorem replaceAll_filter {core : List Char → Option (List Char × List Char)}
    {emit : List Char → List Char} {q : Char → Bool} (hqnl : q '\n' = false)
    (hmid : ∀ cs lab r, core cs = some (lab, r) →
      ∃ mid, cs = mid ++ r ∧ mid.filter q = lab.filter q)
    (hemit : ∀ lab, (emit lab).filter q = lab.filter q)
    (hlen : ∀ cs lab r, core cs = some (lab, r) → r.length ≤ cs.length)
    (l : List Char) : (replaceAll core emit l).filter q = l.filter q := by
  cases hco : core l with
  | some p =>
    obtain ⟨lab, r⟩ := p
    obtain ⟨mid, hm1, hm2⟩ := hmid l lab r hco
    have hr : r.length ≤ l.length := hlen l lab r hco
    rw [replaceAll_some hco, List.filter_append, hemit,
        scanReplF_filter hqnl hmid hemit hlen l.length r hr, hm1,
        List.filter_append, hm2]
  | none =>
    rw [replaceAll_none hco]
    exact scanReplF_filter hqnl hmid hemit hlen l.length l le_rfl

theorem scanReplF_exNonws {core : List Char → Option (List Char × List Char)}
    {emit : List Char → List Char}
    (hemit : ∀ lab, ∃ c ∈ emit lab, jsWhitespace c = false) :
    ∀ fuel x, x.length ≤ fuel → (∃ c ∈ x, jsWhitespace c = false) →
      ∃ c ∈ scanReplF core emit fuel x, jsWhitespace c = false := by
  intro fuel
  induction fuel with
  | zero =>
    intro x hx hex
    rw [List.eq_nil_of_length_eq_zero (Nat.le_zero.mp hx)] at hex ⊢
    exact hex
  | succ fuel ih =>
    intro x hx hex
    cases x with
    | nil => simp at hex
    | cons c rest =>
      have hrest : rest.length ≤ fuel := by
        simpa using Nat.succ_le_succ_iff.mp (by simpa using hx)
      obtain ⟨d, hd, hdw⟩ := hex
      by_cases hc : c = '\n'
      · subst hc
        have hdrest : d ∈ rest := by
          rcases List.mem_cons.mp hd with h1 | h1
          · subst h1
            rw [jsWhitespace_newline] at hdw
            exact absurd hdw (by simp)
          · exact h1
        cases hco : core rest with
        | some p =>
          obtain ⟨lab, r⟩ := p
          rw [scanReplF_cons_some hco]
          obtain ⟨e, he, hew⟩ := hemit lab
          exact ⟨e, List.mem_cons_of_mem _ (List.mem_append_left _ he), hew⟩
        | none =>
          rw [scanReplF_cons_none hco]
          obtain ⟨e, he, hew⟩ := ih rest hrest ⟨d, hdrest, hdw⟩
          exact ⟨e, List.mem_cons_of_mem _ he, hew⟩
      · rw [scanReplF_cons_other hc]
        by_cases hcw : jsWhitespace c = false
        · exact ⟨c, by simp, hcw⟩
        · have hdrest : d ∈ rest := by
            rcases List.mem_cons.mp hd with h1 | h1
            · subst h1
              exact absurd hdw hcw
            · exact h1
          obtain ⟨e, he, hew⟩ := ih rest hrest ⟨d, hdrest, hdw⟩
          exact ⟨e, List.mem_cons_of_mem _ he, hew⟩

theorem replaceAll_exNonws {core : List Char → Option (List Char × List Char)}
    {emit : List Char → List Char}
    (hemit : ∀ lab, ∃ c ∈ emit lab, jsWhitespace c = false)
    {l : List Char} (hex : ∃ c ∈ l, jsWhitespace c = false) :
    ∃ c ∈ replaceAll core emit l, jsWhitespace c = false := by
  cases hco : core l with
  | some p =>
    obtain ⟨lab, r⟩ := p
    rw [replaceAll_some hco]
    obtain ⟨e, he, hew⟩ := hemit lab
    exact ⟨e, List.mem_append_left _ he, hew⟩
  | none =>
    rw [replaceAll_none hco]
    exact scanReplF_exNonws hemit l.length l le_rfl hex

theorem scanReplF_headD (core : List Char → Option (List Char × List Char))
    (emit : List Char → List Char) :
    ∀ fuel x, x.length ≤ fuel →
      (splitAll (scanReplF core emit fuel x)).headD [] = (splitAll x).headD [] := by
  intro fuel
  induction fuel with
  | zero =>
    intro x hx
    rw [List.eq_nil_of_length_eq_zero (Nat.le_zero.mp hx)]
    rfl
  | succ fuel ih =>
    intro x hx
    cases x with
    | nil => rfl
    | cons c rest =>
      have hrest : rest.length ≤ fuel := by
        simpa using Nat.succ_le_succ_iff.mp (by simpa using hx)
      by_cases hc : c = '\n'
      · subst hc
        cases hco : core rest with
        | some p =>
          obtain ⟨lab, r⟩ := p
          rw [scanReplF_cons_some hco, splitAll_cons_nl, splitAll_cons_nl]
          rfl
        | none =>
          rw [scanReplF_cons_none hco, splitAll_cons_nl, splitAll_cons_nl]
          rfl
      · rw [scanReplF_cons_other hc, splitAll_headD_cons hc, splitAll_headD_cons hc,
            ih rest hrest]

/-- The scanner preserves every canonical header line (and keeps lines other
than the first in non-initial position). -/
theorem scanReplF_hdr {core : List Char → Option (List Char × List Char)}
    {emit : List Char → List Char}
    (hdecomp : ∀ cs lab r, core cs = some (lab, r) →
      ∃ p0 pre w, cs = ((p0 :: pre) ++ w) ++ r ∧ p0 ≠ '#' ∧
        (∀ c ∈ p0 :: pre, c ≠ '\n') ∧ (∀ c ∈ w, jsWhitespace c = true))
    (hemitlines : ∀ lab S, ∃ pfx, splitAll (emit lab ++ S) = pfx ++ splitAll S)
    (hlen : ∀ cs lab r, core cs = some (lab, r) → r.length ≤ cs.length) :
    ∀ fuel x l, x.length ≤ fuel → isHdrLine l = true →
      (l ∈ splitAll x → l ∈ splitAll (scanReplF core emit fuel x)) ∧
      (l ∈ (splitAll x).tail → l ∈ (splitAll (scanReplF core emit fuel x)).tail) := by
  intro fuel
  induction fuel with
  | zero =>
    intro x l hx hl
    rw [List.eq_nil_of_length_eq_zero (Nat.le_zero.mp hx)]
    exact ⟨id, id⟩
  | succ fuel ih =>
    intro x l hx hl
    cases x with
    | nil => exact ⟨id, id⟩
    | cons c rest =>
      have hrest : rest.length ≤ fuel := by
        simpa using Nat.succ_le_succ_iff.mp (by simpa using hx)
      by_cases hc : c = '\n'
      · subst hc
        cases hco : core rest with
        | some p =>
          obtain ⟨lab, r⟩ := p
          obtain ⟨p0, pre, w, hcs, hp0, hnl, hws⟩ := hdecomp rest lab r hco
          have hr : r.length ≤ fuel := le_trans (hlen rest lab r hco) hrest
          obtain ⟨pfx, hpfx⟩ := hemitlines lab (scanReplF core emit fuel r)
          have habs : l ∈ splitAll rest → l ∈ splitAll r := by
            intro hmem
            rw [hcs, List.append_assoc] at hmem
            exact hdr_mem_of_ws_append hws hl (hdr_mem_of_noNl_append hp0 hnl hl hmem)
          have hout : l ∈ splitAll rest →
              l ∈ pfx ++ splitAll (scanReplF core emit fuel r) := by
            intro hmem
            exact List.mem_append_right pfx ((ih r l hr hl).1 (habs hmem))
          rw [scanReplF_cons_some hco, splitAll_cons_nl, splitAll_cons_nl, hpfx]
          constructor
            
          · intro hmem
            rcases List.mem_cons.mp hmem with h1 | h1
            · exact absurd h1.symm (by simpa using isHdrLine_ne_nil hl)
            · exact List.mem_cons_of_mem _ (hout h1)
          · intro hmem
            simp only [List.tail_cons] at hmem ⊢
            exact hout hmem
        | none =>
          rw [scanReplF_cons_none hco, splitAll_cons_nl, splitAll_cons_nl]
          constructor
          · intro hmem
            rcases List.mem_cons.mp hmem with h1 | h1
            · exact absurd h1.symm (by simpa using isHdrLine_ne_nil hl)
            · exact List.mem_cons_of_mem _ ((ih rest l hrest hl).1 h1)
          · intro hmem
            simp only [List.tail_cons] at hmem ⊢
            exact (ih rest l hrest hl).1 hmem
      · rw [scanReplF_cons_other hc]
        obtain ⟨h0, tl0, hs0⟩ : ∃ h0 tl0, splitAll rest = h0 :: tl0 := by
          cases hs : splitAll rest with
          | nil => exact absurd hs (splitAll_ne_nil rest)
          | cons a b => exact ⟨a, b, rfl⟩
        obtain ⟨h1, tl1, hs1⟩ :
            ∃ h1 tl1, splitAll (scanReplF core emit fuel rest) = h1 :: tl1 := by
          cases hs : splitAll (scanReplF core emit fuel rest) with
          | nil => exact absurd hs (splitAll_ne_nil _)
          | cons a b => exact ⟨a, b, rfl⟩
        have hhead : h1 = h0 := by
          have := scanReplF_headD core emit fuel rest hrest
          rw [hs0, hs1] at this
          simpa using this
        rw [splitAll_cons_of_ne hc, splitAll_cons_of_ne hc, hs0, hs1, consHead_cons,
            consHead_cons, hhead]
        constructor
        · intro hmem
          rcases List.mem_cons.mp hmem with hca | hca
          · exact hca ▸ List.mem_cons_self _ _
          · have := (ih rest l hrest hl).2 (by simpa [hs0] using hca)
            rw [hs1] at this
            simp only [List.tail_cons] at this
            exact List.mem_cons_of_mem _ this
        · intro hmem
          simp only [List.tail_cons] at hmem ⊢
          have := (ih rest l hrest hl).2 (by simpa [hs0] using hmem)
          rw [hs1] at this
          simpa using this

theorem replaceAll_hdr {core : List Char → Option (List Char × List Char)}
    {emit : List Char → List Char}
    (hdecomp : ∀ cs lab r, core cs = some (lab, r) →
      ∃ p0 pre w, cs = ((p0 :: pre) ++ w) ++ r ∧ p0 ≠ '#' ∧
        (∀ c ∈ p0 :: pre, c ≠ '\n') ∧ (∀ c ∈ w, jsWhitespace c = true))
    (hemitlines : ∀ lab S, ∃ pfx, splitAll (emit lab ++ S) = pfx ++ splitAll S)
    (hlen : ∀ cs lab r, core cs = some (lab, r) → r.length ≤ cs.length)
    {l x : List Char} (hl : isHdrLine l = true) (hmem : l ∈ splitAll x) :
    l ∈ splitAll (replaceAll core emit x) := by
  cases hco : core x with
  | some p =>
    obtain ⟨lab, r⟩ := p
    obtain ⟨p0, pre, w, hcs, hp0, hnl, hws⟩ := hdecomp x lab r hco
    have hr : r.length ≤ x.length := hlen x lab r hco
    obtain ⟨pfx, hpfx⟩ := hemitlines lab (scanReplF core emit x.length r)
    rw [replaceAll_some hco, hpfx]
    have habs : l ∈ splitAll r := by
      rw [hcs, List.append_assoc] at hmem
      exact hdr_mem_of_ws_append hws hl (hdr_mem_of_noNl_append hp0 hnl hl hmem)
    exact List.mem_append_right pfx
      ((scanReplF_hdr hdecomp hemitlines hlen x.length r l hr hl).1 habs)
  | none =>
    rw [replaceAll_none hco]
    exact (scanReplF_hdr hdecomp hemitlines hlen x.length x l le_rfl hl).1 hmem

/-! ### Instantiation for the two rewrites of the normalizer -/

theorem boldLabelChar_ne_nl {c : Char} (h : boldLabelChar c = true) : c ≠ '\n' := by
  intro hc
  subst hc
  exact absurd h (by decide)

theorem isTitleChar_ne_nl {c : Char} (h : isTitleChar c = true) : c ≠ '\n' := by
  intro hc
  subst hc
  exact absurd h (by decide)

theorem isUpperAZ_ne_nl {c : Char} (h : isUpperAZ c = true) : c ≠ '\n' := by
  intro hc
  subst hc
  exact absurd h (by decide)

theorem keepChar_of_ws {c : Char} (h : jsWhitespace c = true) : keepChar c = false := by
  simp [keepChar, h]

theorem filter_keep_all_ws {w : List Char} (h : ∀ c ∈ w, jsWhitespace c = true) :
    w.filter keepChar = [] := by
  induction w with
  | nil => rfl
  | cons c rest ih =>
    rw [List.filter_cons_of_neg (by simp [keepChar_of_ws (h c (by simp))])]
    exact ih (fun d hd => h d (by simp [hd]))

theorem tryBoldCore_mid_filter {cs lab r : List Char} (h : tryBoldCore cs = some (lab, r)) :
    ∃ mid, cs = mid ++ r ∧ mid.filter keepChar = lab.filter keepChar := by
  obtain ⟨w, hcs, hw, -, -, -⟩ := tryBoldCore_eq h
  refine ⟨'*' :: '*' :: (lab ++ '*' :: '*' :: ':' :: w), by rw [hcs], ?_⟩
  rw [List.filter_cons_of_neg (by decide), List.filter_cons_of_neg (by decide),
      List.filter_append, List.filter_cons_of_neg (by decide),
      List.filter_cons_of_neg (by decide), List.filter_cons_of_neg (by decide),
      filter_keep_all_ws hw, List.append_nil]

theorem tryTitleCore_mid_filter {cs lab r : List Char} (h : tryTitleCore cs = some (lab, r)) :
    ∃ mid, cs = mid ++ r ∧ mid.filter keepChar = lab.filter keepChar := by
  obtain ⟨c, run, w, hlab, -, hcs, hw, -⟩ := tryTitleCore_eq h
  refine ⟨lab ++ ':' :: w, by rw [hcs], ?_⟩
  rw [List.filter_append, List.filter_cons_of_neg (by decide),
      filter_keep_all_ws hw, List.append_nil]

theorem emitBold_filter (lab : List Char) :
    (emitBold lab).filter keepChar = lab.filter keepChar := by
  have h1 : emitBold lab = ['#', '#', '#', ' '] ++ lab ++ ['\n', '\n'] := by
    simp [emitBold]
  rw [h1, List.filter_append, List.filter_append,
      show (['#', '#', '#', ' '] : List Char).filter keepChar = [] from by decide,
      show (['\n', '\n'] : List Char).filter keepChar = [] from by decide,
      List.append_nil, List.nil_append]

theorem emitTitle_filter (lab : List Char) :
    (emitTitle lab).filter keepChar = lab.filter keepChar := by
  have h1 : emitTitle lab = ['#', '#', '#', ' '] ++ lab ++ ['\n'] := by
    simp [emitTitle]
  rw [h1, List.filter_append, List.filter_append,
      show (['#', '#', '#', ' '] : List Char).filter keepChar = [] from by decide,
      show (['\n'] : List Char).filter keepChar = [] from by decide,
      List.append_nil, List.nil_append]

theorem boldReplace_filter (l : List Char) :
    (boldReplace l).filter keepChar = l.filter keepChar :=
  replaceAll_filter (by decide) (fun _ _ _ h => tryBoldCore_mid_filter h)
    emitBold_filter (fun _ _ _ h => tryBoldCore_length h) l

theorem titleReplace_filter (l : List Char) :
    (titleReplace l).filter keepChar = l.filter keepChar :=
  replaceAll_filter (by decide) (fun _ _ _ h => tryTitleCore_mid_filter h)
    emitTitle_filter (fun _ _ _ h => tryTitleCore_length h) l

theorem prettifyMarkdown_filter (s : List Char) :
    (prettifyMarkdown s).filter keepChar = s.filter keepChar := by
  unfold prettifyMarkdown
  by_cases hs : s = []
  · rw [if_pos hs]
  · rw [if_neg hs, titleReplace_filter, boldReplace_filter,
        filter_jsTrim (fun c hc => keepChar_of_ws hc)]

theorem boldReplace_exNonws {l : List Char} (hex : ∃ c ∈ l, jsWhitespace c = false) :
    ∃ c ∈ boldReplace l, jsWhitespace c = false :=
  replaceAll_exNonws (fun lab => ⟨'#', by simp [emitBold], by decide⟩) hex

theorem titleReplace_exNonws {l : List Char} (hex : ∃ c ∈ l, jsWhitespace c = false) :
    ∃ c ∈ titleReplace l, jsWhitespace c = false :=
  replaceAll_exNonws (fun lab => ⟨'#', by simp [emitTitle], by decide⟩) hex

theorem tryBoldCore_decomp_hdr {cs lab r : List Char} (h : tryBoldCore cs = some (lab, r)) :
    ∃ p0 pre w, cs = ((p0 :: pre) ++ w) ++ r ∧ p0 ≠ '#' ∧
      (∀ c ∈ p0 :: pre, c ≠ '\n') ∧ (∀ c ∈ w, jsWhitespace c = true) := by
  obtain ⟨w, hcs, hw, hlab, -, -⟩ := tryBoldCore_eq h
  refine ⟨'*', '*' :: (lab ++ ['*', '*', ':']), w, ?_, by decide, ?_, hw⟩
  · rw [hcs]
    simp
  · intro c hc
    simp only [List.mem_cons, List.mem_append] at hc
    rcases hc with h1 | h1 | h1 | h1
    · rw [h1]; decide
    · rw [h1]; decide
    · exact boldLabelChar_ne_nl (hlab c h1)
    · rcases h1 with h2 | h2 | h2 | h2 <;> first | (rw [h2]; decide) | simp at h2

theorem tryTitleCore_decomp_hdr {cs lab r : List Char} (h : tryTitleCore cs = some (lab, r)) :
    ∃ p0 pre w, cs = ((p0 :: pre) ++ w) ++ r ∧ p0 ≠ '#' ∧
      (∀ c ∈ p0 :: pre, c ≠ '\n') ∧ (∀ c ∈ w, jsWhitespace c = true) := by
  obtain ⟨c, run, w, hlab, hup, hcs, hw, hrun⟩ := tryTitleCore_eq h
  refine ⟨c, run ++ [':'], w, ?_, ne_hash_of_isUpperAZ hup, ?_, hw⟩
  · rw [hcs, hlab]
    simp
  · intro d hd
    simp only [List.mem_cons, List.mem_append] at hd
    rcases hd with h1 | h1 | h1
    · rw [h1]; exact isUpperAZ_ne_nl hup
    · exact isTitleChar_ne_nl (hrun d h1)
    · rcases h1 with h2 | h2
      · rw [h2]; decide
      · simp at h2

theorem emitBold_lines (lab : List Char) (S : List Char) :
    ∃ pfx, splitAll (emitBold lab ++ S) = pfx ++ splitAll S := by
  refine ⟨splitAll ('#' :: '#' :: '#' :: ' ' :: lab) ++ [[]], ?_⟩
  have h1 : emitBold lab ++ S = ('#' :: '#' :: '#' :: ' ' :: lab) ++ '\n' :: ('\n' :: S) := by
    simp [emitBold]
  rw [h1, splitAll_append_nl, splitAll_cons_nl]
  simp

theorem emitTitle_lines (lab : List Char) (S : List Char) :
    ∃ pfx, splitAll (emitTitle lab ++ S) = pfx ++ splitAll S := by
  refine ⟨splitAll ('#' :: '#' :: '#' :: ' ' :: lab), ?_⟩
  have h1 : emitTitle lab ++ S = ('#' :: '#' :: '#' :: ' ' :: lab) ++ '\n' :: S := by
    simp [emitTitle]
  rw [h1, splitAll_append_nl]

theorem boldReplace_hdr {l x : List Char} (hl : isHdrLine l = true)
    (hmem : l ∈ splitAll x) : l ∈ splitAll (boldReplace x) :=
  replaceAll_hdr (fun _ _ _ h => tryBoldCore_decomp_hdr h) emitBold_lines
    (fun _ _ _ h => tryBoldCore_length h) hl hmem

theorem titleReplace_hdr {l x : List Char} (hl : isHdrLine l = true)
    (hmem : l ∈ splitAll x) : l ∈ splitAll (titleReplace x) :=
  replaceAll_hdr (fun _ _ _ h => tryTitleCore_decomp_hdr h) emitTitle_lines
    (fun _ _ _ h => tryTitleCore_length h) hl hmem

theorem jsTrimRight_decomp (m : List Char) :
    ∃ w, m = jsTrimRight m ++ w ∧ ∀ c ∈ w, jsWhitespace c = true := by
  refine ⟨(m.reverse.takeWhile jsWhitespace).reverse, ?_, ?_⟩
  · unfold jsTrimRight
    have h1 : m.reverse = m.reverse.takeWhile jsWhitespace ++ m.reverse.dropWhile jsWhitespace :=
      (List.takeWhile_append_dropWhile jsWhitespace m.reverse).symm
    calc m = m.reverse.reverse := (List.reverse_reverse m).symm
    _ = (m.reverse.takeWhile jsWhitespace ++ m.reverse.dropWhile jsWhitespace).reverse := by
        rw [← h1]
    _ = (m.reverse.dropWhile jsWhitespace).reverse ++ (m.reverse.takeWhile jsWhitespace).reverse := by
        rw [List.reverse_append]
  · intro c hc
    rw [List.mem_reverse] at hc
    exact List.mem_takeWhile_imp hc

theorem jsTrim_hdr {l y : List Char} (hl : isHdrLine l = true)
    (hlast : jsWhitespace (l.getLastD '#') = false)
    (hmem : l ∈ splitAll y) : l ∈ splitAll (jsTrim y) := by
  unfold jsTrim
  have h1 : l ∈ splitAll (jsTrimLeft y) := by
    have hy : y = y.takeWhile jsWhitespace ++ jsTrimLeft y :=
      (List.takeWhile_append_dropWhile jsWhitespace y).symm
    rw [hy] at hmem
    exact hdr_mem_of_ws_append (fun c hc => List.mem_takeWhile_imp hc) hl hmem
  obtain ⟨w, hdec, hw⟩ := jsTrimRight_decomp (jsTrimLeft y)
  rw [hdec] at h1
  exact hdr_mem_of_append_ws hw (isHdrLine_ne_nil hl) hlast h1

/-- A canonical header line that does not end in whitespace survives one whole
pass of the normalizer. -/
theorem prettifyMarkdown_hdr {l y : List Char} (hl : isHdrLine l = true)
    (hlast : jsWhitespace (l.getLastD '#') = false)
    (hmem : l ∈ splitAll y) : l ∈ splitAll (prettifyMarkdown y) := by
  unfold prettifyMarkdown
  by_cases hy : y = []
  · subst hy
    simp only [splitAll] at hmem
    rcases List.mem_singleton.mp hmem with h
    exact absurd h (isHdrLine_ne_nil hl)
  · rw [if_neg hy]
    exact titleReplace_hdr hl (boldReplace_hdr hl (jsTrim_hdr hl hlast hmem))

/-! ### Emptiness and non-whitespace facts for the normalizer -/

theorem exists_nonws_of_jsTrim_ne_nil {l : List Char} (h : jsTrim l ≠ []) :
    ∃ c ∈ jsTrim l, jsWhitespace c = false := by
  have h2 : jsTrim (jsTrim l) ≠ [] := by
    rw [jsTrim_idem]
    exact h
  by_contra hcon
  push_neg at hcon
  apply h2
  rw [jsTrim_eq_nil_iff]
  intro c hc
  have := hcon c hc
  simpa using this

theorem jsTrim_ne_nil_of_exists {l : List Char} (hex : ∃ c ∈ l, jsWhitespace c = false) :
    jsTrim l ≠ [] := by
  intro hnil
  obtain ⟨c, hc, hcw⟩ := hex
  have := (jsTrim_eq_nil_iff l).mp hnil c hc
  rw [this] at hcw
  exact absurd hcw (by simp)

theorem prettifyMarkdown_all_ws {s : List Char} (h : ∀ c ∈ s, jsWhitespace c = true) :
    prettifyMarkdown s = [] := by
  unfold prettifyMarkdown
  by_cases hs : s = []
  · rw [if_pos hs, hs]
  · rw [if_neg hs]
    have h1 : jsTrim s = [] := (jsTrim_eq_nil_iff s).mpr h
    rw [h1]
    rfl

theorem jsTrim_prettifyMarkdown_ne_nil {s : List Char} (h : jsTrim s ≠ []) :
    jsTrim (prettifyMarkdown s) ≠ [] := by
  have hs : s ≠ [] := by
    intro hnil
    apply h
    rw [hnil]
    rfl
  obtain ⟨c, hc, hcw⟩ := exists_nonws_of_jsTrim_ne_nil h
  apply jsTrim_ne_nil_of_exists
  unfold prettifyMarkdown
  rw [if_neg hs]
  exact titleReplace_exNonws (boldReplace_exNonws ⟨c, hc, hcw⟩)

/-! ### splitNl (split at lookahead positions) and ordered substrings -/

theorem splitNl_ne_nil (p : List Char → Bool) (l : List Char) : splitNl p l ≠ [] := by
  cases l with
  | nil => simp [splitNl]
  | cons c rest =>
    simp only [splitNl]
    split
    · simp
    · cases hs : splitNl p rest <;> simp [consHead]

theorem countNW_splitNl (p : List Char → Bool) (l : List Char) :
    ((splitNl p l).map countNW).sum = countNW l := by
  induction l with
  | nil => simp [splitNl, countNW]
  | cons c rest ih =>
    simp only [splitNl]
    split
    next hcp =>
      obtain ⟨hc, -⟩ := hcp
      subst hc
      simp only [List.map_cons, List.sum_cons, ih]
      rw [countNW_cons_ws jsWhitespace_newline]
      simp [countNW]
    next =>
      cases hs : splitNl p rest with
      | nil => exact absurd hs (splitNl_ne_nil p rest)
      | cons h tl =>
        rw [hs] at ih
        rw [consHead_cons]
        simp only [List.map_cons, List.sum_cons] at ih ⊢
        have h1 : countNW (c :: h) = countNW [c] + countNW h := by
          simpa using countNW_append [c] h
        have h2 : countNW (c :: rest) = countNW [c] + countNW rest := by
          simpa using countNW_append [c] rest
        rw [h1, h2]
        omega

theorem reconstructs_splitNl (p : List Char → Bool) (l : List Char) :
    reconstructs p (splitNl p l) l := by
  induction l with
  | nil => simp [splitNl, reconstructs]
  | cons c rest ih =>
    simp only [splitNl]
    split
    next hcp =>
      obtain ⟨hc, hp⟩ := hcp
      subst hc
      cases hs : splitNl p rest with
      | nil => exact absurd hs (splitNl_ne_nil p rest)
      | cons g gs =>
        rw [hs] at ih
        show reconstructs p ([] :: g :: gs) ('\n' :: rest)
        exact ⟨rest, rfl, hp, ih⟩
    next =>
      cases hs : splitNl p rest with
      | nil => exact absurd hs (splitNl_ne_nil p rest)
      | cons g gs =>
        rw [hs] at ih
        rw [consHead_cons]
        cases gs with
        | nil =>
          show reconstructs p [c :: g] (c :: rest)
          have : rest = g := ih
          rw [this]
          rfl
        | cons g2 gs2 =>
          obtain ⟨t', ht, hp, hrec⟩ := ih
          exact ⟨t', by rw [ht]; rfl, hp, hrec⟩

theorem chainSub_append_left {xs : List (List Char)} {t : List Char} (a : List Char)
    (h : chainSub xs t) : chainSub xs (a ++ t) := by
  cases xs with
  | nil => trivial
  | cons x xs =>
    obtain ⟨u, v, ht, h2⟩ := h
    exact ⟨a ++ u, v, by rw [ht]; simp, h2⟩

theorem chainSub_append_right {xs : List (List Char)} (b : List Char) :
    ∀ {t : List Char}, chainSub xs t → chainSub xs (t ++ b) := by
  induction xs with
  | nil => intro t _; trivial
  | cons x xs ih =>
    intro t h
    obtain ⟨u, v, ht, h2⟩ := h
    exact ⟨u, v ++ b, by rw [ht]; simp, ih h2⟩

theorem chainSub_of_inside {xs : List (List Char)} {t v : List Char}
    (h : chainSub xs t) (hinf : t <:+: v) : chainSub xs v := by
  obtain ⟨a, b, hv⟩ := hinf
  rw [← hv, List.append_assoc]
  exact chainSub_append_left a (chainSub_append_right b h)

theorem chainSub_tail {x : List Char} {xs : List (List Char)} {t : List Char}
    (h : chainSub (x :: xs) t) : chainSub xs t := by
  obtain ⟨u, v, ht, h2⟩ := h
  rw [ht]
  exact chainSub_append_left (u ++ x) h2

theorem chainSub_map_jsTrim {xs : List (List Char)} :
    ∀ {t : List Char}, chainSub xs t → chainSub (xs.map jsTrim) t := by
  induction xs with
  | nil => intro t _; trivial
  | cons x xs ih =>
    intro t h
    obtain ⟨u, v, ht, h2⟩ := h
    obtain ⟨a, b, hx⟩ := jsTrim_inside x
    refine ⟨u ++ a, b ++ v, ?_, chainSub_append_left b (ih h2)⟩
    rw [ht]
    conv_lhs => rw [← hx]
    simp [List.append_assoc]

theorem chainSub_filter {q : List Char → Bool} {xs : List (List Char)} :
    ∀ {t : List Char}, chainSub xs t → chainSub (xs.filter q) t := by
  induction xs with
  | nil => intro t _; trivial
  | cons x xs ih =>
    intro t h
    obtain ⟨u, v, ht, h2⟩ := h
    by_cases hq : q x = true
    · rw [List.filter_cons_of_pos hq]
      exact ⟨u, v, ht, ih h2⟩
    · rw [List.filter_cons_of_neg (by simpa using hq)]
      rw [ht]
      exact chainSub_append_left (u ++ x) (ih h2)

theorem chainSub_of_reconstructs {p : List Char → Bool} :
    ∀ {fs : List (List Char)} {t : List Char}, reconstructs p fs t → chainSub fs t := by
  intro fs
  induction fs with
  | nil => intro t h; exact absurd h (by simp [reconstructs])
  | cons f fs ih =>
    intro t h
    cases fs with
    | nil =>
      have : t = f := h
      exact ⟨[], [], by simp [this], trivial⟩
    | cons g gs =>
      obtain ⟨t', ht, -, hrec⟩ := h
      refine ⟨[], '\n' :: t', by simp [ht], ?_⟩
      exact chainSub_append_left ['\n'] (ih hrec)

theorem chainSub_splitNl (p : List Char → Bool) (l : List Char) :
    chainSub (splitNl p l) l :=
  chainSub_of_reconstructs (reconstructs_splitNl p l)

theorem reconstructs_lookahead {p : List Char → Bool} :
    ∀ {fs : List (List Char)} {f t : List Char}, reconstructs p (f :: fs) t →
      ∀ g ∈ fs, p g = true ∨ ∃ u, p (g ++ '\n' :: u) = true := by
  intro fs
  induction fs with
  | nil => intro f t _ g hg; simp at hg
  | cons f1 fs ih =>
    intro f t h g hg
    obtain ⟨t', ht, hp, hrec⟩ := h
    rcases List.mem_cons.mp hg with h1 | h1
    · subst h1
      cases fs with
      | nil =>
        have : t' = g := hrec
        rw [this] at hp
        exact Or.inl hp
      | cons g2 gs2 =>
        obtain ⟨t'', ht'', -, -⟩ := hrec
        rw [ht''] at hp
        exact Or.inr ⟨t'', hp⟩
    · exact ih hrec g h1

theorem chainSub_mem_inside {xs : List (List Char)} :
    ∀ {t x : List Char}, chainSub xs t → x ∈ xs → x <:+: t := by
  induction xs with
  | nil => intro t x _ hx; simp at hx
  | cons y ys ih =>
    intro t x h hx
    obtain ⟨u, v, ht, h2⟩ := h
    rcases List.mem_cons.mp hx with h1 | h1
    · subst h1
      exact ⟨u, v, ht.symm⟩
    · have hxv : x <:+: v := ih h2 h1
      have hvt : v <:+: t := ⟨u ++ y, [], by rw [ht]; simp⟩
      exact hxv.trans hvt

theorem countNW_cons_nonws {c : Char} (hc : jsWhitespace c = false) (l : List Char) :
    countNW (c :: l) = countNW l + 1 := by
  unfold countNW
  rw [List.filter_cons_of_pos (by simp [hc])]
  simp [Nat.add_comm]

theorem countNW_dropWhile_ws (l : List Char) :
    countNW (l.dropWhile jsWhitespace) = countNW l := by
  unfold countNW
  rw [filter_dropWhile (fun c hc => by simp [hc])]

theorem countNW_intercalateNl : ∀ ls : List (List Char),
    countNW (intercalateNl ls) = (ls.map countNW).sum := by
  intro ls
  induction ls with
  | nil => simp [intercalateNl, countNW]
  | cons l ls ih =>
    cases ls with
    | nil => simp [intercalateNl, countNW]
    | cons l2 ls2 =>
      show countNW (l ++ '\n' :: intercalateNl (l2 :: ls2)) = _
      rw [countNW_append, countNW_cons_ws jsWhitespace_newline, ih]
      simp

theorem sum_countNW_filter_nonempty (ys : List (List Char)) :
    ((ys.filter (fun x => !x.isEmpty)).map countNW).sum = (ys.map countNW).sum := by
  induction ys with
  | nil => rfl
  | cons y ys ih =>
    by_cases hy : y.isEmpty
    · rw [List.filter_cons_of_neg (by simp [hy])]
      have : y = [] := by simpa using hy
      rw [this] at *
      simp only [List.map_cons, List.sum_cons, ih]
      simp [countNW]
    · rw [List.filter_cons_of_pos (by simp [hy])]
      simp only [List.map_cons, List.sum_cons, ih]

theorem sum_countNW_map_jsTrim (ys : List (List Char)) :
    ((ys.map jsTrim).map countNW).sum = (ys.map countNW).sum := by
  induction ys with
  | nil => rfl
  | cons y ys ih =>
    simp only [List.map_cons, List.sum_cons, ih, countNW_jsTrim]

theorem jsTrimLeft_cons_nonws {c : Char} (hc : jsWhitespace c = false) (l : List Char) :
    jsTrimLeft (c :: l) = c :: l := by
  unfold jsTrimLeft
  exact List.dropWhile_cons_of_neg (by simp [hc])

theorem jsTrimRight_append_eq (a b : List Char) :
    jsTrimRight (a ++ b) =
      if jsTrimRight b = [] then jsTrimRight a else a ++ jsTrimRight b := by
  unfold jsTrimRight
  rw [List.reverse_append, List.dropWhile_append]
  by_cases hb : b.reverse.dropWhile jsWhitespace = []
  · rw [if_pos (by simp [hb]), if_pos (by simp [hb])]
  · rw [if_neg (by simp [hb]), if_neg (by simp [hb])]
    rw [List.reverse_append, List.reverse_reverse]

theorem numericLookahead_eq {v : List Char} (h : numericLookahead v = true) :
    ∃ ds c2 rf, v = ds ++ '.' :: c2 :: rf ∧ ds ≠ [] ∧
      (∀ d ∈ ds, isDigitC d = true) ∧ jsWhitespace c2 = true := by
  unfold numericLookahead at h
  rw [Bool.and_eq_true] at h
  obtain ⟨hne, hmatch⟩ := h
  split at hmatch
  next c1 c2 rf heq =>
    rw [Bool.and_eq_true] at hmatch
    obtain ⟨hc1, hc2⟩ := hmatch
    have hc1' : c1 = '.' := by simpa using hc1
    subst hc1'
    refine ⟨v.takeWhile isDigitC, c2, rf, ?_, ?_, ?_, hc2⟩
    · conv_lhs => rw [← List.takeWhile_append_dropWhile isDigitC v]
      rw [heq]
    · intro hnil
      rw [hnil] at hne
      simp at hne
    · intro d hd
      exact List.mem_takeWhile_imp hd
  next => simp at hmatch

theorem digits_align : ∀ {ds g u w : List Char}, (∀ d ∈ ds, isDigitC d = true) →
    g ++ '\n' :: u = ds ++ '.' :: w → ∃ rf, g = ds ++ '.' :: rf := by
  intro ds
  induction ds with
  | nil =>
    intro g u w _ h
    cases g with
    | nil =>
      simp only [List.nil_append, List.cons.injEq] at h
      exact absurd h.1 (by decide)
    | cons c g' =>
      simp only [List.cons_append, List.nil_append, List.cons.injEq] at h
      exact ⟨g', by simp [h.1]⟩
  | cons d ds ih =>
    intro g u w hds h
    cases g with
    | nil =>
      simp only [List.nil_append, List.cons_append, List.cons.injEq] at h
      have : isDigitC '\n' = true := h.1 ▸ hds d (by simp)
      exact absurd this (by decide)
    | cons c g' =>
      simp only [List.cons_append, List.cons.injEq] at h
      obtain ⟨hcd, h2⟩ := h
      obtain ⟨rf, hrf⟩ := ih (fun e he => hds e (by simp [he])) h2
      exact ⟨rf, by rw [List.cons_append, ← hrf, hcd]⟩

theorem jsTrim_marker {ds rf : List Char} (hds : ∀ d ∈ ds, isDigitC d = true)
    (hne : ds ≠ []) : ∃ rf2, jsTrim (ds ++ '.' :: rf) = ds ++ '.' :: rf2 := by
  obtain ⟨d0, ds', hds0⟩ : ∃ d0 ds', ds = d0 :: ds' := by
    cases ds with
    | nil => exact absurd rfl hne
    | cons a b => exact ⟨a, b, rfl⟩
  have hleft : jsTrimLeft (ds ++ '.' :: rf) = ds ++ '.' :: rf := by
    rw [hds0, List.cons_append]
    exact jsTrimLeft_cons_nonws (not_ws_of_isDigitC (hds d0 (by simp [hds0]))) _
  have hassoc : ds ++ '.' :: rf = (ds ++ ['.']) ++ rf := by simp
  have hArt : jsTrimRight (ds ++ ['.']) = ds ++ ['.'] := by
    unfold jsTrimRight
    rw [List.reverse_append]
    show (('.' :: ds.reverse).dropWhile jsWhitespace).reverse = _
    rw [List.dropWhile_cons_of_neg (by decide)]
    simp
  unfold jsTrim
  rw [hleft, hassoc, jsTrimRight_append_eq]
  by_cases hrf : jsTrimRight rf = []
  · rw [if_pos hrf, hArt]
    exact ⟨[], by simp⟩
  · rw [if_neg hrf]
    exact ⟨jsTrimRight rf, by simp⟩

/-! ### Segmenter lemmas -/

theorem splitIntoDigest_ne_nil {t : List Char} (h : jsTrim t ≠ []) :
    splitIntoDigest t ≠ [] := by
  unfold splitIntoDigest
  rw [if_neg h]
  show (if 1 < (((splitNl headerLookahead (jsTrim t)).map jsTrim).filter
          (fun x => !x.isEmpty)).length
        then ((splitNl headerLookahead (jsTrim t)).map jsTrim).filter (fun x => !x.isEmpty)
        else [jsTrim t]).map mkCard ≠ []
  by_cases hlen : 1 < (((splitNl headerLookahead (jsTrim t)).map jsTrim).filter
      (fun x => !x.isEmpty)).length
  · rw [if_pos hlen]
    intro hnil
    rw [List.map_eq_nil_iff] at hnil
    rw [hnil] at hlen
    simp at hlen
  · rw [if_neg hlen]
    simp

theorem splitIntoDigest_eq_nil_iff (t : List Char) :
    splitIntoDigest t = [] ↔ jsTrim t = [] := by
  constructor
  · intro h
    by_contra hne
    exact splitIntoDigest_ne_nil hne h
  · intro h
    unfold splitIntoDigest
    rw [if_pos h]


theorem stripHeaderMark_countNW (l : List Char) :
    countNW l ≤ countNW (stripHeaderMark l) + 2 := by
  have hh : ∀ X : List Char, countNW ('#' :: X) = countNW X + 1 :=
    fun X => countNW_cons_nonws jsWhitespace_hash X
  unfold stripHeaderMark
  split
  all_goals try split
  all_goals try simp only [countNW_dropWhile_ws, hh]
  all_goals omega

theorem mkCard_title_eq (b : List Char) :
    (mkCard b).title =
      (if jsTrim (stripHeaderMark (jsTrim ((splitAll b).headD []))) = [] then "Top story".data
       else jsTrim (stripHeaderMark (jsTrim ((splitAll b).headD [])))) := rfl

theorem mkCard_body_eq (b : List Char) :
    (mkCard b).body =
      (if (if jsTrim (intercalateNl (splitAll b).tail) = [] then []
           else splitNl numericLookahead (jsTrim (intercalateNl (splitAll b).tail))) = []
       then jsTrim (intercalateNl (splitAll b).tail)
       else jsTrim ((if jsTrim (intercalateNl (splitAll b).tail) = [] then []
           else splitNl numericLookahead (jsTrim (intercalateNl (splitAll b).tail))).headD [])) :=
  rfl

theorem mkCard_subcards_eq (b : List Char) :
    (mkCard b).subcards =
      (if (if jsTrim (intercalateNl (splitAll b).tail) = [] then []
           else splitNl numericLookahead (jsTrim (intercalateNl (splitAll b).tail))).length ≤ 1
       then []
       else (((if jsTrim (intercalateNl (splitAll b).tail) = [] then []
           else splitNl numericLookahead (jsTrim (intercalateNl (splitAll b).tail))).tail).map
             jsTrim).filter (fun x => !x.isEmpty)) := rfl

theorem body_subs_ge (rest : List Char) :
    countNW rest ≤
      countNW (if (if rest = [] then [] else splitNl numericLookahead rest) = []
               then rest
               else jsTrim ((if rest = [] then [] else splitNl numericLookahead rest).headD [])) +
      ((if (if rest = [] then [] else splitNl numericLookahead rest).length ≤ 1 then []
        else (((if rest = [] then [] else splitNl numericLookahead rest).tail).map
          jsTrim).filter (fun x => !x.isEmpty)).map countNW).sum := by
  by_cases he : rest = []
  · subst he
    simp [countNW]
  · simp only [if_neg he]
    obtain ⟨ph, pt, hparts⟩ : ∃ ph pt, splitNl numericLookahead rest = ph :: pt := by
      cases hp : splitNl numericLookahead rest with
      | nil => exact absurd hp (splitNl_ne_nil _ _)
      | cons a c => exact ⟨a, c, rfl⟩
    rw [hparts]
    have hsump := countNW_splitNl numericLookahead rest
    rw [hparts] at hsump
    simp only [List.map_cons, List.sum_cons] at hsump
    rw [if_neg (List.cons_ne_nil ph pt), List.headD_cons, List.tail_cons, countNW_jsTrim]
    by_cases hl1 : (ph :: pt).length ≤ 1
    · rw [if_pos hl1]
      have hpt : pt = [] := by
        cases pt with
        | nil => rfl
        | cons a c => simp at hl1
      subst hpt
      simp only [List.map_nil, List.sum_nil] at hsump ⊢
      omega
    · rw [if_neg hl1, sum_countNW_filter_nonempty, sum_countNW_map_jsTrim]
      omega

theorem mkCard_countNW (b : List Char) : countNW b ≤ cardNW (mkCard b) + 2 := by
  obtain ⟨h0, tl, hs⟩ : ∃ h0 tl, splitAll b = h0 :: tl := by
    cases hsp : splitAll b with
    | nil => exact absurd hsp (splitAll_ne_nil b)
    | cons a c => exact ⟨a, c, rfl⟩
  have hsum : countNW b = countNW h0 + (tl.map countNW).sum := by
    have := countNW_splitAll b
    rw [hs] at this
    simpa using this.symm
  have htitle : countNW h0 ≤ countNW (mkCard b).title + 2 := by
    rw [mkCard_title_eq, hs]
    simp only [List.headD_cons]
    by_cases he : jsTrim (stripHeaderMark (jsTrim h0)) = []
    · rw [if_pos he]
      have h1 : countNW (stripHeaderMark (jsTrim h0)) = 0 := by
        rw [← countNW_jsTrim, he]
        rfl
      have h2 := stripHeaderMark_countNW (jsTrim h0)
      rw [countNW_jsTrim] at h2
      omega
    · rw [if_neg he, countNW_jsTrim]
      have h2 := stripHeaderMark_countNW (jsTrim h0)
      rw [countNW_jsTrim] at h2
      exact h2
  have hrest : countNW (jsTrim (intercalateNl tl)) = (tl.map countNW).sum := by
    rw [countNW_jsTrim, countNW_intercalateNl]
  have hbs := body_subs_ge (jsTrim (intercalateNl tl))
  rw [hrest] at hbs
  have hbody := mkCard_body_eq b
  have hsubs := mkCard_subcards_eq b
  rw [hs] at hbody hsubs
  simp only [List.tail_cons] at hbody hsubs
  have hcard : cardNW (mkCard b) =
      countNW (mkCard b).title + countNW (mkCard b).body +
        ((mkCard b).subcards.map countNW).sum := rfl
  rw [hbody, hsubs] at hcard
  rw [hcard]
  omega

theorem sum_map_add_two (l : List (List Char)) (f : List Char → Nat) :
    (l.map (fun b => f b + 2)).sum = (l.map f).sum + 2 * l.length := by
  induction l with
  | nil => rfl
  | cons x xs ih =>
    simp only [List.map_cons, List.sum_cons, ih, List.length_cons]
    ring

theorem splitIntoDigest_countNW (t : List Char) :
    countNW t ≤ totalNW (splitIntoDigest t) + 2 * (splitIntoDigest t).length := by
  by_cases h : jsTrim t = []
  · have h0 : countNW t = 0 := by
      rw [← countNW_jsTrim, h]
      rfl
    omega
  · have hrw : splitIntoDigest t =
        (if 1 < (((splitNl headerLookahead (jsTrim t)).map jsTrim).filter
            (fun x => !x.isEmpty)).length
         then ((splitNl headerLookahead (jsTrim t)).map jsTrim).filter (fun x => !x.isEmpty)
         else [jsTrim t]).map mkCard := by
      unfold splitIntoDigest
      rw [if_neg h]
    rw [hrw]
    have hsum : countNW (jsTrim t) ≤
        ((if 1 < (((splitNl headerLookahead (jsTrim t)).map jsTrim).filter
            (fun x => !x.isEmpty)).length
          then ((splitNl headerLookahead (jsTrim t)).map jsTrim).filter (fun x => !x.isEmpty)
          else [jsTrim t]).map countNW).sum := by
      by_cases hlen : 1 < (((splitNl headerLookahead (jsTrim t)).map jsTrim).filter
          (fun x => !x.isEmpty)).length
      · rw [if_pos hlen, sum_countNW_filter_nonempty, sum_countNW_map_jsTrim,
            countNW_splitNl]
      · rw [if_neg hlen]
        simp
    have hper : ∀ sb : List (List Char), (sb.map countNW).sum ≤
        totalNW (sb.map mkCard) + 2 * (sb.map mkCard).length := by
      intro sb
      have h1 : (sb.map countNW).sum ≤ (sb.map (fun b => cardNW (mkCard b) + 2)).sum :=
        List.sum_le_sum (fun b _ => mkCard_countNW b)
      have h2 : (sb.map (fun b => cardNW (mkCard b) + 2)).sum =
          (sb.map (fun b => cardNW (mkCard b))).sum + 2 * sb.length :=
        sum_map_add_two sb _
      have h3 : totalNW (sb.map mkCard) = (sb.map (fun b => cardNW (mkCard b))).sum := by
        unfold totalNW
        rw [List.map_map]
        rfl
      have h4 : (sb.map mkCard).length = sb.length := List.length_map sb mkCard
      omega
    calc countNW t = countNW (jsTrim t) := (countNW_jsTrim t).symm
    _ ≤ _ := le_trans hsum (hper _)

theorem intercalateNl_tail_inside (b : List Char) :
    intercalateNl (splitAll b).tail <:+: b := by
  cases hs : splitAll b with
  | nil => exact absurd hs (splitAll_ne_nil b)
  | cons h0 tl =>
    cases tl with
    | nil =>
      show intercalateNl [] <:+: b
      simp [intercalateNl]
    | cons t2 ts =>
      have hb : b = h0 ++ '\n' :: intercalateNl (t2 :: ts) := by
        conv_lhs => rw [← intercalateNl_splitAll b]
        rw [hs]
        rfl
      refine ⟨h0 ++ ['\n'], [], ?_⟩
      rw [hb]
      simp

theorem mkCard_chainSub (b : List Char) : chainSub (mkCard b).subcards b := by
  rw [mkCard_subcards_eq]
  by_cases he : jsTrim (intercalateNl (splitAll b).tail) = []
  · simp only [if_pos he]
    split
    · trivial
    · trivial
  · simp only [if_neg he]
    by_cases hl1 : (splitNl numericLookahead (jsTrim (intercalateNl (splitAll b).tail))).length ≤ 1
    · rw [if_pos hl1]
      trivial
    · rw [if_neg hl1]
      obtain ⟨ph, pt, hparts⟩ : ∃ ph pt,
          splitNl numericLookahead (jsTrim (intercalateNl (splitAll b).tail)) = ph :: pt := by
        cases hp : splitNl numericLookahead (jsTrim (intercalateNl (splitAll b).tail)) with
        | nil => exact absurd hp (splitNl_ne_nil _ _)
        | cons a c => exact ⟨a, c, rfl⟩
      rw [hparts, List.tail_cons]
      have hchain : chainSub pt (jsTrim (intercalateNl (splitAll b).tail)) := by
        have := chainSub_splitNl numericLookahead (jsTrim (intercalateNl (splitAll b).tail))
        rw [hparts] at this
        exact chainSub_tail this
      have hinf : jsTrim (intercalateNl (splitAll b).tail) <:+: b :=
        (jsTrim_inside _).trans (intercalateNl_tail_inside b)
      exact chainSub_of_inside (chainSub_filter (chainSub_map_jsTrim hchain)) hinf

theorem splitIntoDigest_chainSub {t : List Char} {c : DigestCard}
    (hc : c ∈ splitIntoDigest t) : chainSub c.subcards t := by
  by_cases h : jsTrim t = []
  · rw [(splitIntoDigest_eq_nil_iff t).mpr h] at hc
    simp at hc
  · replace hc : c ∈ (if 1 < (((splitNl headerLookahead (jsTrim t)).map jsTrim).filter
        (fun x => !x.isEmpty)).length
       then ((splitNl headerLookahead (jsTrim t)).map jsTrim).filter (fun x => !x.isEmpty)
       else [jsTrim t]).map mkCard := by
      have hrw : splitIntoDigest t =
          (if 1 < (((splitNl headerLookahead (jsTrim t)).map jsTrim).filter
              (fun x => !x.isEmpty)).length
           then ((splitNl headerLookahead (jsTrim t)).map jsTrim).filter (fun x => !x.isEmpty)
           else [jsTrim t]).map mkCard := by
        unfold splitIntoDigest
        rw [if_neg h]
      rw [← hrw]
      exact hc
    obtain ⟨b, hb, hbc⟩ := List.mem_map.mp hc
    have hbinf : b <:+: t := by
      by_cases hlen : 1 < (((splitNl headerLookahead (jsTrim t)).map jsTrim).filter
          (fun x => !x.isEmpty)).length
      · rw [if_pos hlen] at hb
        rw [List.mem_filter] at hb
        obtain ⟨hb1, -⟩ := hb
        obtain ⟨f, hf, hfb⟩ := List.mem_map.mp hb1
        have h1 : f <:+: jsTrim t :=
          chainSub_mem_inside (chainSub_splitNl headerLookahead (jsTrim t)) hf
        rw [← hfb]
        exact ((jsTrim_inside f).trans h1).trans (jsTrim_inside t)
      · rw [if_neg hlen] at hb
        rcases List.mem_singleton.mp hb with h1
        rw [h1]
        exact jsTrim_inside t
    rw [← hbc]
    exact chainSub_of_inside (mkCard_chainSub b) hbinf

theorem splitIntoDigest_subcard {t : List Char} {c : DigestCard} {sub : List Char}
    (hc : c ∈ splitIntoDigest t) (hsub : sub ∈ c.subcards) :
    sub ≠ [] ∧ jsTrim sub = sub ∧
      ∃ ds rf, sub = ds ++ '.' :: rf ∧ ds ≠ [] ∧ ∀ d ∈ ds, isDigitC d = true := by
  by_cases h : jsTrim t = []
  · rw [(splitIntoDigest_eq_nil_iff t).mpr h] at hc
    simp at hc
  · replace hc : c ∈ (if 1 < (((splitNl headerLookahead (jsTrim t)).map jsTrim).filter
        (fun x => !x.isEmpty)).length
       then ((splitNl headerLookahead (jsTrim t)).map jsTrim).filter (fun x => !x.isEmpty)
       else [jsTrim t]).map mkCard := by
      have hrw : splitIntoDigest t =
          (if 1 < (((splitNl headerLookahead (jsTrim t)).map jsTrim).filter
              (fun x => !x.isEmpty)).length
           then ((splitNl headerLookahead (jsTrim t)).map jsTrim).filter (fun x => !x.isEmpty)
           else [jsTrim t]).map mkCard := by
        unfold splitIntoDigest
        rw [if_neg h]
      rw [← hrw]
      exact hc
    obtain ⟨b, -, hbc⟩ := List.mem_map.mp hc
    rw [← hbc, mkCard_subcards_eq] at hsub
    by_cases he : jsTrim (intercalateNl (splitAll b).tail) = []
    · simp only [if_pos he] at hsub
      split at hsub
      · simp at hsub
      · simp at hsub
    · simp only [if_neg he] at hsub
      by_cases hl1 :
          (splitNl numericLookahead (jsTrim (intercalateNl (splitAll b).tail))).length ≤ 1
      · rw [if_pos hl1] at hsub
        simp at hsub
      · rw [if_neg hl1] at hsub
        rw [List.mem_filter] at hsub
        obtain ⟨hmem, hne'⟩ := hsub
        obtain ⟨g, hg, hgs⟩ := List.mem_map.mp hmem
        obtain ⟨ph, pt, hparts⟩ : ∃ ph pt,
            splitNl numericLookahead (jsTrim (intercalateNl (splitAll b).tail)) = ph :: pt := by
          cases hp : splitNl numericLookahead (jsTrim (intercalateNl (splitAll b).tail)) with
          | nil => exact absurd hp (splitNl_ne_nil _ _)
          | cons a c => exact ⟨a, c, rfl⟩
        rw [hparts, List.tail_cons] at hg
        have hrec := reconstructs_splitNl numericLookahead
          (jsTrim (intercalateNl (splitAll b).tail))
        rw [hparts] at hrec
        have hla := reconstructs_lookahead hrec g hg
        obtain ⟨ds, rf, hgds, hdsne, hdsall⟩ :
            ∃ ds rf, g = ds ++ '.' :: rf ∧ ds ≠ [] ∧ ∀ d ∈ ds, isDigitC d = true := by
          rcases hla with h1 | ⟨u, h1⟩
          · obtain ⟨ds, c2, rf, hv, hne2, hall, -⟩ := numericLookahead_eq h1
            exact ⟨ds, c2 :: rf, hv, hne2, hall⟩
          · obtain ⟨ds, c2, rf, hv, hne2, hall, -⟩ := numericLookahead_eq h1
            obtain ⟨rf2, hrf2⟩ := digits_align hall hv
            exact ⟨ds, rf2, hrf2, hne2, hall⟩
        refine ⟨by simpa using hne', ?_, ?_⟩
        · rw [← hgs, jsTrim_idem]
        · rw [← hgs, hgds]
          obtain ⟨rf2, hrf2⟩ := jsTrim_marker hdsall hdsne
          exact ⟨ds, rf2, hrf2, hdsne, hdsall⟩

/-! ### Claim theorems -/

/-- Claim C1: for every string `s`, the composed pipeline
`splitIntoDigest (prettifyMarkdown s)` is a total function returning a list of
`DigestCard`s, and the result is empty exactly when `s` is empty or
whitespace-only (i.e. trims to the empty string).  Totality is witnessed by the
definitions themselves; this theorem settles the emptiness condition. -/
theorem claim1_pipeline_total_empty_iff (s : List Char) :
    splitIntoDigest (prettifyMarkdown s) = [] ↔ jsTrim s = [] := by
  constructor
  · intro h
    by_contra hne
    exact splitIntoDigest_ne_nil (jsTrim_prettifyMarkdown_ne_nil hne) h
  · intro h
    have h1 : prettifyMarkdown s = [] := prettifyMarkdown_all_ws ((jsTrim_eq_nil_iff s).mp h)
    rw [h1]
    exact (splitIntoDigest_eq_nil_iff []).mpr rfl

/-- Claim C2, counterexample: on the input `"# Hi\nBo."` the normalizer is the
identity (so it introduces no header-marker characters), yet the segmenter's
output carries strictly fewer non-whitespace characters than the normalized
input, because the title strip discards the `#` of the pre-existing header. -/
theorem claim2_counterexample :
    prettifyMarkdown "# Hi\nBo.".data = "# Hi\nBo.".data ∧
    totalNW (splitIntoDigest (prettifyMarkdown "# Hi\nBo.".data)) <
      countNW (prettifyMarkdown "# Hi\nBo.".data) := by
  decide

/-- Claim C2, amended: for every input string, the total non-whitespace
character count across all `title`, `body` and `subcards` fields of the cards
produced by the pipeline is at least the non-whitespace count of the
normalized input minus two characters per card (the at most two header-marker
characters stripped from each card's title, whether those markers were
introduced by normalization or already present in the input). -/
theorem claim2_content_preservation (s : List Char) :
    countNW (prettifyMarkdown s) ≤
      totalNW (splitIntoDigest (prettifyMarkdown s)) +
        2 * (splitIntoDigest (prettifyMarkdown s)).length :=
  splitIntoDigest_countNW (prettifyMarkdown s)

/-- Claim C3, counterexample: on the unstructured one-line input the pipeline
produces a card titled with the whole sentence, not with the fallback label
`"Top story"` (the fallback fires only when the stripped first line is empty). -/
theorem claim3_counterexample :
    (splitIntoDigest (prettifyMarkdown
        "Just one paragraph with no structure at all.".data)).map DigestCard.title =
      ["Just one paragraph with no structure at all.".data] ∧
    "Just one paragraph with no structure at all.".data ≠ "Top story".data := by
  decide

/-- Claim C3, amended: for the input
`"Just one paragraph with no structure at all."` the pipeline produces exactly
one card whose title is the trimmed input text (the single block's first line),
whose body is empty, and whose subcards list is empty. -/
theorem claim3_single_paragraph :
    splitIntoDigest (prettifyMarkdown "Just one paragraph with no structure at all.".data) =
      [⟨"Just one paragraph with no structure at all.".data, [], []⟩] := by
  decide

/-- Claim C4: on the input `"**Market Update:**\nStocks rose today."` the
normalizer leaves the text unchanged — the bold-rewrite regex requires the
colon after the closing `**`, while this line (and the source comment
`"**Section:**" -> ### Section`) has it inside — so segmentation titles the
card with the raw line `"**Market Update:**"` instead of `"Market Update"`. -/
theorem claim4_code_behavior :
    prettifyMarkdown "**Market Update:**\nStocks rose today.".data =
      "**Market Update:**\nStocks rose today.".data ∧
    splitIntoDigest (prettifyMarkdown "**Market Update:**\nStocks rose today.".data) =
      [⟨"**Market Update:**".data, "Stocks rose today.".data, []⟩] := by
  decide

/-- Claim C5, counterexample: on the whitespace-only input `" "` the
normalizer returns the empty string, not the input unchanged, because it
trims before matching. -/
theorem claim5_counterexample :
    prettifyMarkdown " ".data = [] ∧ prettifyMarkdown " ".data ≠ " ".data := by
  decide

/-- Claim C5, amended: for every input that is empty or consists only of
whitespace characters, the normalizer returns the empty string without
signalling an error (for the empty input this is the input unchanged). -/
theorem claim5_whitespace_input (s : List Char) (h : ∀ c ∈ s, jsWhitespace c = true) :
    prettifyMarkdown s = [] :=
  prettifyMarkdown_all_ws h

/-- Claim C5, witness: the amended claim applied to the concrete
whitespace-only input of two spaces and a tab. -/
theorem claim5_witness :
    (∀ c ∈ "  \t".data, jsWhitespace c = true) ∧ prettifyMarkdown "  \t".data = [] :=
  ⟨by decide, claim5_whitespace_input "  \t".data (by decide)⟩

/-- Claim C6, counterexample: the length of the normalizer's output can be
smaller than the length of its input — the initial trim alone shortens
`" x"` to `"x"`. -/
theorem claim6_counterexample :
    (prettifyMarkdown " x".data).length < " x".data.length := by
  decide

/-- Claim C6, amended: the normalizer never drops characters other than
whitespace, asterisks, colons and hash marks: its output is at least as long
as the number of characters of the input outside that set (it shortens text
only by trimming and by the `*`, `:` and whitespace characters it consumes
around rewritten headers). -/
theorem claim6_normalize_keeps_content (s : List Char) :
    (s.filter keepChar).length ≤ (prettifyMarkdown s).length := by
  have h := prettifyMarkdown_filter s
  calc (s.filter keepChar).length = ((prettifyMarkdown s).filter keepChar).length := by rw [h]
  _ ≤ (prettifyMarkdown s).length := List.length_filter_le _ _

/-- Claim C7: the segmenter returns the empty sequence exactly when its input
trims to the empty string; every input with a non-whitespace character yields
at least one card, and empty/whitespace-only input yields `[]` without error. -/
theorem claim7_segment_empty_iff (t : List Char) :
    splitIntoDigest t = [] ↔ jsTrim t = [] :=
  splitIntoDigest_eq_nil_iff t

/-- Claim C8: the subcards of every card produced by the segmenter occur, in
their output order, as non-overlapping substrings of the original input text
in that same order — the segmenter never re-sorts them. -/
theorem claim8_subcards_order (t : List Char) (c : DigestCard)
    (hc : c ∈ splitIntoDigest t) : chainSub c.subcards t :=
  splitIntoDigest_chainSub hc

/-- Claim C8, witness: the two subcards of the card produced from a concrete
numbered digest appear in input order as substrings of the input. -/
theorem claim8_witness :
    chainSub ["1. First.".data, "2. Second.".data]
      "## News\nIntro\n1. First.\n2. Second.".data :=
  claim8_subcards_order "## News\nIntro\n1. First.\n2. Second.".data
    ⟨"News".data, "Intro".data, ["1. First.".data, "2. Second.".data]⟩ (by decide)

/-- Claim C9, counterexample: the input `"**abc **:"` normalizes to
`"### abc \n\n"`, whose canonical header line `"### abc "` ends in a space;
re-applying the normalizer trims that trailing whitespace, so this canonical
header line does not appear unchanged in the twice-normalized text. -/
theorem claim9_counterexample :
    isHdrLine "### abc ".data = true ∧
    "### abc ".data ∈ splitAll (prettifyMarkdown "**abc **:".data) ∧
    "### abc ".data ∉ splitAll (prettifyMarkdown (prettifyMarkdown "**abc **:".data)) := by
  decide

/-- Claim C9, amended: every canonical header line of `normalize(s)` that does
not itself end in whitespace appears unchanged, as a line, in
`normalize(normalize(s))`: a line once converted to a canonical header starts
with `#` and therefore matches neither rewrite pattern again. -/
theorem claim9_header_lines_stable (s l : List Char) (hl : isHdrLine l = true)
    (hlast : jsWhitespace (l.getLastD '#') = false)
    (hmem : l ∈ splitAll (prettifyMarkdown s)) :
    l ∈ splitAll (prettifyMarkdown (prettifyMarkdown s)) :=
  prettifyMarkdown_hdr hl hlast hmem

/-- Claim C9, witness: the header line produced from a concrete bold
pseudo-header survives a second normalization pass. -/
theorem claim9_witness :
    "### abcd".data ∈ splitAll (prettifyMarkdown (prettifyMarkdown "a\n**abcd**: x".data)) :=
  claim9_header_lines_stable "a\n**abcd**: x".data "### abcd".data (by decide) (by decide)
    (by decide)

/-- Claim C10, counterexample: on the input `"T\nb\n1.   \n2. x"` the fragment
`"1.   "` is trimmed to the subcard `"1."`, which does not begin with a
numeric marker in the claimed sense (digits, period, then whitespace): the
whitespace after the period was trimmed away. -/
theorem claim10_counterexample :
    (splitIntoDigest "T\nb\n1.   \n2. x".data).map DigestCard.subcards =
      [[['1', '.'], "2. x".data]] ∧
    numericLookahead ['1', '.'] = false := by
  decide

/-- Claim C10, amended: every subcard of every card is non-empty, carries no
leading or trailing whitespace (it equals its own trim), and begins with one
or more digits followed by a period; the whitespace required after the period
by the split lookahead may itself have been trimmed away when the marker ends
the fragment. -/
theorem claim10_subcard_shape (t : List Char) (c : DigestCard) (sub : List Char)
    (hc : c ∈ splitIntoDigest t) (hsub : sub ∈ c.subcards) :
    sub ≠ [] ∧ jsTrim sub = sub ∧
      ∃ ds rf, sub = ds ++ '.' :: rf ∧ ds ≠ [] ∧ ∀ d ∈ ds, isDigitC d = true :=
  splitIntoDigest_subcard hc hsub

/-- Claim C10, witness: the amended claim applied to a concrete subcard of a
concrete input. -/
theorem claim10_witness :
    "3. p".data ≠ [] ∧ jsTrim "3. p".data = "3. p".data ∧
      ∃ ds rf, "3. p".data = ds ++ '.' :: rf ∧ ds ≠ [] ∧ ∀ d ∈ ds, isDigitC d = true :=
  claim10_subcard_shape "## T\nbb\n3. p\n4. q".data
    ⟨"T".data, "bb".data, ["3. p".data, "4. q".data]⟩ "3. p".data (by decide) (by decide)
